import Mathlib

/-!
Verification development for the image-link consistency engine of the
obsidian-smart-image-renamer plugin.

Text is modelled as `List Char`.  Each regular expression of the source is
embedded as a deterministic matcher on a character list: for every grammar
used by the plugin the character classes exclude the delimiter that the
engine would backtrack over, so the JavaScript leftmost / greedy / lazy
semantics collapse to a single deterministic parse, which the matchers
implement directly.  The `g`-flag `exec` loop is embedded as `scanAux`,
which repeatedly finds the leftmost match at or after the current index and
resumes at the end of the match.
-/

/-- Recognized image extensions (src/utils/constants.ts `IMAGE_EXTENSIONS`,
re-exported in src/services: png, jpg, jpeg, gif, webp, bmp, svg, avif,
tiff, tif, ico). -/
def IMAGE_EXTENSIONS : List (List Char) :=
  ["png".toList, "jpg".toList, "jpeg".toList, "gif".toList, "webp".toList,
   "bmp".toList, "svg".toList, "avif".toList, "tiff".toList, "tif".toList,
   "ico".toList]

/-- JavaScript `\d`: the ASCII digits. -/
def jsDigit (c : Char) : Bool := '0' ≤ c ∧ c ≤ '9'

/-- JavaScript `\s`: whitespace and line terminators (ASCII whitespace,
NBSP, BOM, and the Unicode space separators). -/
def jsSpace (c : Char) : Bool :=
  c = ' ' ∨ c = '\t' ∨ c = '\n' ∨ c = '\r' ∨ c.val = 11 ∨ c.val = 12 ∨
  c.val = 0xa0 ∨ c.val = 0x1680 ∨ (0x2000 ≤ c.val ∧ c.val ≤ 0x200a) ∨
  c.val = 0x2028 ∨ c.val = 0x2029 ∨ c.val = 0x202f ∨ c.val = 0x205f ∨
  c.val = 0x3000 ∨ c.val = 0xfeff

/-- Character class `[^\]|]` of the wiki-link grammars. -/
def wikiPathChar (c : Char) : Bool := c ≠ ']' ∧ c ≠ '|'

/-- Character class `[^)\s]` of the markdown path group. -/
def mdPathChar (c : Char) : Bool := c ≠ ')' ∧ ¬ jsSpace c

/-- Does `r` end in `"." ++ ext` for a recognized image extension (matching
case-insensitively, as under the regex `i` flag), with a non-empty part
before the dot?  This is exactly when the group
`([^\]|]+\.(?:png|jpg|jpeg|gif|webp|bmp|svg|avif|tiff?|ico))` can consume
the whole run `r`. -/
def hasImageExt (r : List Char) : Bool :=
  IMAGE_EXTENSIONS.any fun e =>
    e.length + 2 ≤ r.length ∧
    (r.drop (r.length - e.length)).map Char.toLower = e ∧
    r.getD (r.length - e.length - 1) ' ' = '.'

/-- Groups captured by a wiki-link match: target, raw caption group
(`none` when the group did not participate) and size group. -/
structure WikiGroups where
  path : List Char
  caption : Option (List Char)
  size : Option (List Char)
  deriving Repr, DecidableEq

/-- Matcher for the part of a wiki embed following the target group:
`(?:\|([^|\]]*?))?(?:\|(\d+))?\]\]`.  Returns the caption group, the size
group and the number of characters consumed.  Because both optional groups
must begin with `|` and the classes exclude `|` and `]`, the backtracking
search of the regex engine reduces to this case analysis. -/
def wikiTail (s : List Char) : Option (Option (List Char) × Option (List Char) × Nat) :=
  match s with
  | ']' :: ']' :: _ => some (none, none, 2)
  | '|' :: rest =>
    let seg := rest.takeWhile wikiPathChar
    match rest.drop seg.length with
    | ']' :: ']' :: _ => some (some seg, none, 1 + seg.length + 2)
    | '|' :: r3 =>
      let ds := r3.takeWhile jsDigit
      if ds.isEmpty then none
      else
        match r3.drop ds.length with
        | ']' :: ']' :: _ => some (some seg, some ds, 1 + seg.length + 1 + ds.length + 2)
        | _ => none
    | _ => none
  | _ => none

/-- Modelled from the spec (the constants module holding `WIKI_IMAGE_REGEX`
is not part of the provided sources; §4.3 and the design document give the
pattern): matcher for
`!\[\[([^\]|]+\.(?:png|jpg|jpeg|gif|webp|bmp|svg|avif|tiff?|ico))(?:\|([^|\]]*?))?(?:\|(\d+))?\]\]`
with flags `gi`, at the head of `s`.  Returns the groups and the length of
the whole match. -/
def wikiImageMatch (s : List Char) : Option (WikiGroups × Nat) :=
  match s with
  | '!' :: '[' :: '[' :: rest =>
    let r := rest.takeWhile wikiPathChar
    if r.isEmpty then none
    else if hasImageExt r then
      match wikiTail (rest.drop r.length) with
      | some (cap, sz, tlen) => some (⟨r, cap, sz⟩, 3 + r.length + tlen)
      | none => none
    else none
  | _ => none

/-- Matcher for `WIKI_LINK_NO_EXT_REGEX =
!\[\[([^\]|]+?)(?:\|([^|\]]*?))?(?:\|(\d+))?\]\]` (caption-service.ts):
identical to `wikiImageMatch` except that the target needs no image
extension. -/
def wikiNoExtMatch (s : List Char) : Option (WikiGroups × Nat) :=
  match s with
  | '!' :: '[' :: '[' :: rest =>
    let r := rest.takeWhile wikiPathChar
    if r.isEmpty then none
    else
      match wikiTail (rest.drop r.length) with
      | some (cap, sz, tlen) => some (⟨r, cap, sz⟩, 3 + r.length + tlen)
      | none => none
  | _ => none

/-- Groups captured by a markdown image match: alt text and path. -/
structure MdGroups where
  alt : List Char
  path : List Char
  deriving Repr, DecidableEq

/-- Modelled from the spec (same missing constants module; §4.3 and the
design document give the pattern): matcher for `MARKDOWN_IMAGE_REGEX =
!\[([^\]]*)\]\(([^)\s]+\.(?:png|jpg|jpeg|gif|webp|bmp|svg|avif|tiff?|ico))(?:\s+"[^"]*")?\)`
with flags `gi`, at the head of `s`. -/
def mdImageMatch (s : List Char) : Option (MdGroups × Nat) :=
  match s with
  | '!' :: '[' :: rest =>
    let alt := rest.takeWhile (· ≠ ']')
    match rest.drop alt.length with
    | ']' :: '(' :: r2 =>
      let p := r2.takeWhile mdPathChar
      if p.isEmpty then none
      else if hasImageExt p then
        match r2.drop p.length with
        | ')' :: _ => some (⟨alt, p⟩, 2 + alt.length + 2 + p.length + 1)
        | c :: r3 =>
          if jsSpace c then
            let ws := (c :: r3).takeWhile jsSpace
            match (c :: r3).drop ws.length with
            | '"' :: r4 =>
              let ttl := r4.takeWhile (· ≠ '"')
              match r4.drop ttl.length with
              | '"' :: ')' :: _ =>
                some (⟨alt, p⟩, 2 + alt.length + 2 + p.length + ws.length + 1 + ttl.length + 2)
              | _ => none
            | _ => none
          else none
        | [] => none
      else none
    | _ => none
  | _ => none

/-- Embedding of the `g`-flag `exec` loop: the leftmost match at index ≥ `i`
is reported and scanning resumes at its end.  `fuel` only serves the
termination checker; every match of the grammars above consumes at least
one character, so `length + 1` fuel is never exhausted. -/
def scanAux (m : List Char → Option (G × Nat)) : Nat → List Char → Nat → List (Nat × G × Nat)
  | 0, _, _ => []
  | _ + 1, [], _ => []
  | fuel + 1, s@(_ :: rest), i =>
    match m s with
    | some (g, len) => (i, g, len) :: scanAux m fuel (s.drop len) (i + len)
    | none => scanAux m fuel rest (i + 1)

/-- All matches of grammar `m` over `s`, with their start indices and
lengths. -/
def scan (m : List Char → Option (G × Nat)) (s : List Char) : List (Nat × G × Nat) :=
  scanAux m (s.length + 1) s 0

/-- Link syntax kind (`type` field of `ImageLink`). -/
inductive LinkType where
  | wiki
  | markdown
  deriving Repr, DecidableEq

/-- The `ImageLink` record of caption-service.ts.  The `end` field of the
source is called `stop` here (`end` is a Lean keyword). -/
structure ImageLink where
  fullMatch : List Char
  filePath : List Char
  caption : Option (List Char)
  size : Option (List Char)
  type : LinkType
  start : Nat
  stop : Nat
  deriving Repr, DecidableEq

/-- JavaScript `x || null` on an optional captured group: an absent group
and an empty capture both become `null`. -/
def orNull (o : Option (List Char)) : Option (List Char) :=
  match o with
  | some [] => none
  | some c => some c
  | none => none

/-- Build the `ImageLink` pushed for a wiki match at index `i`
(caption-service.ts lines 26-34): `match[0]` is the consumed slice. -/
def mkWikiLink (content : List Char) (e : Nat × WikiGroups × Nat) : ImageLink :=
  { fullMatch := (content.drop e.1).take e.2.2
    filePath := e.2.1.path
    caption := orNull e.2.1.caption
    size := orNull e.2.1.size
    type := .wiki
    start := e.1
    stop := e.1 + e.2.2 }

/-- Build the `ImageLink` pushed for a markdown match
(caption-service.ts lines 41-49): the alt text is the caption, size is
always null. -/
def mkMdLink (content : List Char) (e : Nat × MdGroups × Nat) : ImageLink :=
  { fullMatch := (content.drop e.1).take e.2.2
    filePath := e.2.1.path
    caption := orNull (some e.2.1.alt)
    size := none
    type := .markdown
    start := e.1
    stop := e.1 + e.2.2 }

/-- `CaptionService.parseImageLinks`: wiki matches, then markdown matches,
sorted by start offset (`links.sort((a, b) => a.start - b.start)`,
a stable sort). -/
def parseImageLinks (content : List Char) : List ImageLink :=
  List.insertionSort (fun a b => a.start ≤ b.start)
    ((scan wikiImageMatch content).map (mkWikiLink content) ++
      (scan mdImageMatch content).map (mkMdLink content))

/-- `CaptionService.parseAllWikiLinks`: matches of the extension-less wiki
grammar, in document order (no sort in the source). -/
def parseAllWikiLinks (content : List Char) : List ImageLink :=
  (scan wikiNoExtMatch content).map (mkWikiLink content)

/-- Value of a hex digit, as read by `decodeURIComponent`. -/
def hexVal (c : Char) : Option Nat :=
  if '0' ≤ c ∧ c ≤ '9' then some (c.toNat - '0'.toNat)
  else if 'a' ≤ c ∧ c ≤ 'f' then some (c.toNat - 'a'.toNat + 10)
  else if 'A' ≤ c ∧ c ≤ 'F' then some (c.toNat - 'A'.toNat + 10)
  else none

/-- Byte value of a two-hex-digit escape body. -/
def hexByte (h l : Char) : Option Nat :=
  match hexVal h, hexVal l with
  | some a, some b => some (16 * a + b)
  | _, _ => none

/-- Byte value of a UTF-8 continuation escape body. -/
def contB (h l : Char) : Option Nat :=
  match hexByte h l with
  | some b => if 0x80 ≤ b ∧ b ≤ 0xbf then some b else none
  | none => none

/-- Model of the JavaScript builtin `decodeURIComponent`: percent escapes
are decoded as UTF-8 byte sequences; any malformed escape or invalid
UTF-8 sequence raises `URIError`, modelled as `none`.  Characters other
than `%` pass through unchanged. -/
def decodeAux : List Char → Option (List Char)
  | [] => some []
  | '%' :: h1 :: l1 :: rest =>
    match hexByte h1 l1 with
    | none => none
    | some b1 =>
      if b1 ≤ 0x7f then
        (decodeAux rest).map (Char.ofNat b1 :: ·)
      else if 0xc2 ≤ b1 ∧ b1 ≤ 0xdf then
        match rest with
        | '%' :: h2 :: l2 :: rest2 =>
          match contB h2 l2 with
          | some b2 => (decodeAux rest2).map (Char.ofNat ((b1 - 0xc0) * 64 + (b2 - 0x80)) :: ·)
          | none => none
        | _ => none
      else if 0xe0 ≤ b1 ∧ b1 ≤ 0xef then
        match rest with
        | '%' :: h2 :: l2 :: '%' :: h3 :: l3 :: rest3 =>
          match contB h2 l2, contB h3 l3 with
          | some b2, some b3 =>
            let cp := (b1 - 0xe0) * 4096 + (b2 - 0x80) * 64 + (b3 - 0x80)
            if 0x800 ≤ cp ∧ ¬ (0xd800 ≤ cp ∧ cp ≤ 0xdfff) then
              (decodeAux rest3).map (Char.ofNat cp :: ·)
            else none
          | _, _ => none
        | _ => none
      else if 0xf0 ≤ b1 ∧ b1 ≤ 0xf4 then
        match rest with
        | '%' :: h2 :: l2 :: '%' :: h3 :: l3 :: '%' :: h4 :: l4 :: rest4 =>
          match contB h2 l2, contB h3 l3, contB h4 l4 with
          | some b2, some b3, some b4 =>
            let cp := (b1 - 0xf0) * 262144 + (b2 - 0x80) * 4096 + (b3 - 0x80) * 64 + (b4 - 0x80)
            if 0x10000 ≤ cp ∧ cp ≤ 0x10ffff then
              (decodeAux rest4).map (Char.ofNat cp :: ·)
            else none
          | _, _, _ => none
        | _ => none
      else none
  | '%' :: _ :: [] => none
  | ['%'] => none
  | c :: rest => (decodeAux rest).map (c :: ·)

/-- ASCII model of JavaScript `toLowerCase` (`Char.toLower` lowers exactly
the ASCII letters; every string this development evaluates case folding on
is ASCII at that point). -/
def jsToLower (l : List Char) : List Char := l.map Char.toLower

/-- `CaptionService.normalizePath`: URL-decode (keeping the original on
failure — the source wraps the decode in try/catch), take the last
`/`-separated segment, lowercase. -/
def normalizePath (path : List Char) : List Char :=
  let decoded := (decodeAux path).getD path
  jsToLower ((decoded.splitOn '/').getLastD [])

/-- `CaptionService.getBasename`: normalized path without its extension
(`lastIndexOf('.') > 0`). -/
def getBasename (path : List Char) : List Char :=
  let filename := normalizePath path
  match (filename.reverse.findIdx? (· = '.')) with
  | some ridx =>
    let lastDot := filename.length - 1 - ridx
    if 0 < lastDot then filename.take lastDot else filename
  | none => filename

/-- `CaptionService.findImageLink`: exact (extension-required) match first,
then the extension-less wiki fallback compared by basename. -/
def findImageLink (content : List Char) (imagePath : List Char) : Option ImageLink :=
  let links := parseImageLinks content
  let normalized := normalizePath imagePath
  match links.find? (fun link => normalizePath link.filePath = normalized) with
  | some found => some found
  | none =>
    let basename := getBasename imagePath
    if basename ≠ normalized then
      (parseAllWikiLinks content).find? (fun link => normalizePath link.filePath = basename)
    else
      none

/-- JavaScript truthiness of an optional string (`if (caption)`): both
`null` and the empty string are falsy. -/
def truthy (o : Option (List Char)) : Bool :=
  match o with
  | some [] => false
  | some _ => true
  | none => false

/-- `CaptionService.buildImageLink`. -/
def buildImageLink (filePath : List Char) (caption : Option (List Char))
    (size : Option (List Char)) (type : LinkType) : List Char :=
  match type with
  | .wiki =>
    "![[".toList ++ filePath ++
      (if truthy caption then '|' :: caption.getD [] else []) ++
      (if truthy size then
        (if truthy caption then [] else ['|']) ++ '|' :: size.getD []
      else []) ++ "]]".toList
  | .markdown =>
    "![".toList ++ (if truthy caption then caption.getD [] else []) ++
      "](".toList ++ filePath ++ [')']

/-- `CaptionService.setCaption`: locate the link, rebuild it with the new
caption (same path, size, kind), splice it over the `[start, stop)` span. -/
def setCaption (content : List Char) (imagePath : List Char) (caption : List Char) : List Char :=
  match findImageLink content imagePath with
  | none => content
  | some link =>
    content.take link.start ++
      buildImageLink link.filePath (some caption) link.size link.type ++
      content.drop link.stop

/-- `CaptionService.removeCaption`: locate the link, rebuild it with the
caption cleared (size preserved), splice it over the span. -/
def removeCaption (content : List Char) (imagePath : List Char) : List Char :=
  match findImageLink content imagePath with
  | none => content
  | some link =>
    content.take link.start ++
      buildImageLink link.filePath none link.size link.type ++
      content.drop link.stop

/-- Tracker wikilink grammar `WIKILINK_IMAGE_REGEX = !\[\[([^\]]+)\]\]`
(link-tracker-service.ts): the single group is everything up to `]]`,
including any `|caption|size` part. -/
def trackerWikiMatch (s : List Char) : Option (List Char × Nat) :=
  match s with
  | '!' :: '[' :: '[' :: rest =>
    let p := rest.takeWhile (· ≠ ']')
    if p.isEmpty then none
    else
      match rest.drop p.length with
      | ']' :: ']' :: _ => some (p, 3 + p.length + 2)
      | _ => none
  | _ => none

/-- Tracker markdown grammar `MARKDOWN_IMAGE_REGEX = !\[[^\]]*\]\(([^)]+)\)`
(link-tracker-service.ts). -/
def trackerMdMatch (s : List Char) : Option (List Char × Nat) :=
  match s with
  | '!' :: '[' :: rest =>
    let alt := rest.takeWhile (· ≠ ']')
    match rest.drop alt.length with
    | ']' :: '(' :: r2 =>
      let p := r2.takeWhile (· ≠ ')')
      if p.isEmpty then none
      else
        match r2.drop p.length with
        | ')' :: _ => some (p, 2 + alt.length + 2 + p.length + 1)
        | _ => none
    | _ => none
  | _ => none

/-- `LinkTrackerService.isImagePath`: the part after the last `.` (the whole
string when there is no dot), lowercased, must be a recognized extension. -/
def isImagePath (path : List Char) : Bool :=
  IMAGE_EXTENSIONS.contains (jsToLower ((path.splitOn '.').getLastD []))

/-- Insertion into a JavaScript `Set` (insertion order preserved, duplicates
collapse). -/
def addUnique (l : List (List Char)) (x : List Char) : List (List Char) :=
  if l.contains x then l else l ++ [x]

/-- `LinkTrackerService.extractImageLinks`.  The wikilink pass filters the
raw group through `isImagePath`; the markdown pass calls the throwing
builtin `decodeURIComponent` on the group *without* a catch, so a malformed
escape aborts the whole extraction (`Except.error`). -/
def extractImageLinksE (content : List Char) : Except Unit (List (List Char)) :=
  let s1 := (scan trackerWikiMatch content).foldl
    (fun acc e => if isImagePath e.2.1 then addUnique acc e.2.1 else acc) []
  (scan trackerMdMatch content).foldlM
    (fun acc e =>
      match decodeAux e.2.1 with
      | none => .error ()
      | some d => .ok (if isImagePath d then addUnique acc d else acc)) s1

/-- The per-note cache of the tracker, `Map<string, Set<string>>`. -/
abbrev TrackerCache := List (List Char × List (List Char))

/-- `Map.set`. -/
def cacheSet (cache : TrackerCache) (key : List Char) (v : List (List Char)) : TrackerCache :=
  match cache with
  | [] => [(key, v)]
  | (k, w) :: rest => if k = key then (key, v) :: rest else (k, w) :: cacheSet rest key v

/-- `Map.get`. -/
def cacheGet (cache : TrackerCache) (key : List Char) : Option (List (List Char)) :=
  match cache with
  | [] => none
  | (k, w) :: rest => if k = key then some w else cacheGet rest key

/-- `LinkTrackerService.updateCache`. -/
def updateCacheE (cache : TrackerCache) (notePath content : List Char) :
    Except Unit TrackerCache := do
  let links ← extractImageLinksE content
  pure (cacheSet cache notePath links)

/-- `LinkTrackerService.detectRemovedLinks`: diff the cached set against the
new extraction, update the cache, report old links absent from the new set
(empty when the note had no snapshot). -/
def detectRemovedLinksE (cache : TrackerCache) (notePath newContent : List Char) :
    Except Unit (List (List Char) × TrackerCache) := do
  let oldLinks := cacheGet cache notePath
  let newLinks ← extractImageLinksE newContent
  let cache' := cacheSet cache notePath newLinks
  match oldLinks with
  | none => pure ([], cache')
  | some old => pure (old.filter (fun l => ¬ newLinks.contains l), cache')

/-- Characters illegal in filenames (`INVALID_FILENAME_CHARS`). -/
def invalidFilenameChar (c : Char) : Bool :=
  c = '\\' ∨ c = '/' ∨ c = ':' ∨ c = '*' ∨ c = '?' ∨ c = '"' ∨ c = '<' ∨ c = '>' ∨ c = '|'

/-- Modelled from the spec: the JavaScript builtin
`String.prototype.normalize('NFD')` as used by the aggressive sanitizer —
a canonical-decomposition table for the precomposed Latin letters this
development evaluates it on; all other characters decompose to themselves. -/
def nfdChar (c : Char) : List Char :=
  match c with
  | 'à' => ['a', '̀'] | 'á' => ['a', '́'] | 'â' => ['a', '̂']
  | 'ã' => ['a', '̃'] | 'ä' => ['a', '̈'] | 'å' => ['a', '̊']
  | 'è' => ['e', '̀'] | 'é' => ['e', '́'] | 'ê' => ['e', '̂']
  | 'ë' => ['e', '̈'] | 'ì' => ['i', '̀'] | 'í' => ['i', '́']
  | 'î' => ['i', '̂'] | 'ï' => ['i', '̈'] | 'ò' => ['o', '̀']
  | 'ó' => ['o', '́'] | 'ô' => ['o', '̂'] | 'õ' => ['o', '̃']
  | 'ö' => ['o', '̈'] | 'ù' => ['u', '̀'] | 'ú' => ['u', '́']
  | 'û' => ['u', '̂'] | 'ü' => ['u', '̈'] | 'ñ' => ['n', '̃']
  | 'ç' => ['c', '̧'] | 'ý' => ['y', '́'] | 'ÿ' => ['y', '̈']
  | 'À' => ['A', '̀'] | 'Á' => ['A', '́'] | 'Â' => ['A', '̂']
  | 'Ã' => ['A', '̃'] | 'Ä' => ['A', '̈'] | 'Å' => ['A', '̊']
  | 'È' => ['E', '̀'] | 'É' => ['E', '́'] | 'Ê' => ['E', '̂']
  | 'Ë' => ['E', '̈'] | 'Ì' => ['I', '̀'] | 'Í' => ['I', '́']
  | 'Î' => ['I', '̂'] | 'Ï' => ['I', '̈'] | 'Ò' => ['O', '̀']
  | 'Ó' => ['O', '́'] | 'Ô' => ['O', '̂'] | 'Õ' => ['O', '̃']
  | 'Ö' => ['O', '̈'] | 'Ù' => ['U', '̀'] | 'Ú' => ['U', '́']
  | 'Û' => ['U', '̂'] | 'Ü' => ['U', '̈'] | 'Ñ' => ['N', '̃']
  | 'Ç' => ['C', '̧'] | 'Ý' => ['Y', '́']
  | _ => [c]

/-- NFD normalization of a string under the model above. -/
def nfd (l : List Char) : List Char := l.flatMap nfdChar

/-- Combining diacritical mark, `[̀-ͯ]`. -/
def combiningMark (c : Char) : Bool := 0x300 ≤ c.val ∧ c.val ≤ 0x36f

/-- Worker for `collapseWs`: `inRun` records whether the previous
character was whitespace (the run already produced its replacement). -/
def collapseWsAux (r : List Char) (inRun : Bool) : List Char → List Char
  | [] => []
  | c :: rest =>
    if jsSpace c then
      (if inRun then [] else r) ++ collapseWsAux r true rest
    else c :: collapseWsAux r false rest

/-- `replace(/\s+/g, r)`: every maximal whitespace run becomes `r`. -/
def collapseWs (r : List Char) (l : List Char) : List Char :=
  collapseWsAux r false l

/-- Worker for `collapseUnderscores`. -/
def collapseUnderscoresAux (inRun : Bool) : List Char → List Char
  | [] => []
  | c :: rest =>
    if c = '_' then
      (if inRun then [] else ['_']) ++ collapseUnderscoresAux true rest
    else c :: collapseUnderscoresAux false rest

/-- `replace(/_+/g, '_')`. -/
def collapseUnderscores (l : List Char) : List Char :=
  collapseUnderscoresAux false l

/-- `replace(/^_|_$/g, '')`: one leading and one trailing underscore are
removed. -/
def stripEdgeUnderscores (l : List Char) : List Char :=
  let l1 := match l with
    | '_' :: rest => rest
    | other => other
  match l1.getLast? with
  | some '_' => l1.dropLast
  | _ => l1

/-- JavaScript `trim()`. -/
def jsTrim (l : List Char) : List Char :=
  (l.dropWhile jsSpace).reverse.dropWhile jsSpace |>.reverse

/-- `sanitizeFilename` (src/utils/filename.ts). -/
def sanitizeFilename (name : List Char) (aggressive : Bool) : List Char :=
  if aggressive then
    jsToLower <| stripEdgeUnderscores <| collapseUnderscores <| collapseWs ['_'] <|
      (((nfd (jsTrim name)).filter (fun c => ¬ combiningMark c)).filter
          (fun c => ¬ invalidFilenameChar c)).filter
        (fun c => ('a' ≤ c ∧ c ≤ 'z') ∨ ('A' ≤ c ∧ c ≤ 'Z') ∨ ('0' ≤ c ∧ c ≤ '9') ∨
          jsSpace c ∨ c = '_' ∨ c = '-')
  else
    jsTrim (collapseWs [' '] (name.filter (fun c => ¬ invalidFilenameChar c)))

/-- `suffixMode` setting of the file service. -/
inductive SuffixMode where
  | sequential
  | timestamp
  deriving Repr, DecidableEq

/-- `folderPath ? folderPath + "/" + fileName : fileName` (empty folder is
falsy). -/
def joinPath (folderPath fileName : String) : String :=
  if folderPath = "" then fileName else folderPath ++ "/" ++ fileName

/-- Candidate `"{baseName} {n}.{extension}"` of the sequential loop. -/
def seqCandidate (folderPath baseName extension : String) (n : Nat) : String :=
  joinPath folderPath (baseName ++ " " ++ toString n ++ "." ++ extension)

/-- First candidate `"{baseName} {timestamp}.{extension}"` of timestamp
mode. -/
def tsFirstCandidate (folderPath baseName ts extension : String) : String :=
  joinPath folderPath (baseName ++ " " ++ ts ++ "." ++ extension)

/-- Fallback candidate `"{baseName} {timestamp}-{n}.{extension}"` after a
timestamp collision. -/
def tsSeqCandidate (folderPath baseName ts extension : String) (n : Nat) : String :=
  joinPath folderPath (baseName ++ " " ++ ts ++ "-" ++ toString n ++ "." ++ extension)

/-- Hypothesis that the probing loops of `getAvailablePath` terminate: some
candidate is free.  The source imposes no cap on the loops, so the model
carries the assumption explicitly. -/
def availHyp (mode : SuffixMode) (folderPath baseName ts extension : String)
    (check : String → Bool) : Prop :=
  match mode with
  | .sequential => ∃ k, check (seqCandidate folderPath baseName extension (k + 1)) = false
  | .timestamp =>
    check (tsFirstCandidate folderPath baseName ts extension) = true →
      ∃ k, check (tsSeqCandidate folderPath baseName ts extension (k + 1)) = false

instance availHypDecPred (folderPath baseName extension : String)
    (check : String → Bool) :
    DecidablePred fun k => check (seqCandidate folderPath baseName extension (k + 1)) = false :=
  fun _ => instDecidableEqBool _ _

/-- `FileService.getAvailablePath`.  `check` is the injected existence
probe (`vault.getAbstractFileByPath(path) !== null`), assumed stable for
the duration of the call; `ts` stands for the `formatTimestamp` result
(a value of the ambient clock).  Each `while` loop returns its first free
candidate, i.e. the least index satisfying the probe, embedded with
`Nat.find` on the termination hypothesis. -/
def getAvailablePath (mode : SuffixMode) (folderPath baseName ts extension : String)
    (check : String → Bool) (h : availHyp mode folderPath baseName ts extension check) :
    String :=
  match mode with
  | .sequential => seqCandidate folderPath baseName extension (Nat.find h + 1)
  | .timestamp =>
    let first := tsFirstCandidate folderPath baseName ts extension
    if hc : check first = true then
      tsSeqCandidate folderPath baseName ts extension (Nat.find (h hc) + 1)
    else first

/-- File identity as the bulk-rename service sees it (`TFile`): full path,
base name, extension, parent folder path (`none` when the file has no
parent). -/
structure BFile where
  path : String
  basename : String
  extension : String
  parent : Option String
  deriving Repr, DecidableEq

/-- `ImageInfo` (types/bulk-rename.ts): image file, owning note (its base
name; `none` when unreferenced), generic-name flag. -/
structure ImageInfo where
  file : BFile
  sourceNote : Option String
  isGeneric : Bool
  deriving Repr, DecidableEq

/-- `BulkRenameItem` (types/bulk-rename.ts). -/
structure BulkRenameItem where
  file : BFile
  currentName : String
  newName : String
  sourceNote : String
  selected : Bool
  isGeneric : Bool
  deriving Repr, DecidableEq

/-- Bulk-rename modes. -/
inductive BulkRenameMode where
  | prepend
  | replace
  | pattern
  deriving Repr, DecidableEq

/-- Image filter of the bulk modal. -/
inductive ImageFilter where
  | all
  | generic
  deriving Repr, DecidableEq

/-- `BulkRenameService.filterImages`. -/
def filterImages (images : List ImageInfo) (filter : ImageFilter) : List ImageInfo :=
  match filter with
  | .all => images
  | .generic => images.filter (·.isGeneric)

/-- JavaScript `String.prototype.replace` with a *string* pattern: only the
first occurrence is replaced (an empty pattern matches at the start). -/
def replaceFirst (s pat rep : List Char) : List Char :=
  if pat.isEmpty then rep ++ s
  else
    match s with
    | [] => []
    | c :: rest =>
      if pat.isPrefixOf s then rep ++ s.drop pat.length
      else c :: replaceFirst rest pat rep

/-- String-level wrapper for `replaceFirst`. -/
def jsReplace (s pat rep : String) : String :=
  ⟨replaceFirst s.toList pat.toList rep.toList⟩

/-- String-level wrapper for `sanitizeFilename`. -/
def sanitize (name : String) (aggressive : Bool) : String :=
  ⟨sanitizeFilename name.toList aggressive⟩

/-- `BulkRenameService.generateNewName`: note-derived base name per mode,
then sanitized.  `aggressive` models `settings.aggressiveSanitization`. -/
def generateNewName (image : ImageInfo) (mode : BulkRenameMode) (pattern : Option String)
    (aggressive : Bool) : String :=
  let noteName := image.sourceNote.getD "Untitled"
  let currentName := image.file.basename
  let newName :=
    match mode with
    | .prepend => noteName ++ " - " ++ currentName
    | .replace => noteName
    | .pattern =>
      jsReplace (jsReplace (pattern.getD "{note}") "{note}" noteName) "{original}" currentName
  sanitize newName aggressive

/-- `BulkRenameService.alreadyFollowsNamingPattern`: the regex
`^{escaped expectedBaseName} \d+$` (the escaping makes the base name
literal), i.e. `filename = expectedBaseName ++ " " ++ digits`. -/
def alreadyFollowsNamingPattern (filename expectedBaseName : String) : Bool :=
  expectedBaseName.toList.isPrefixOf filename.toList &&
    match filename.toList.drop expectedBaseName.toList.length with
    | ' ' :: ds => !ds.isEmpty && ds.all jsDigit
    | _ => false

/-- JavaScript `String.prototype.includes`: does `pat` occur in `s`? -/
def containsSub (pat : List Char) : List Char → Bool
  | [] => pat.isEmpty
  | s@(_ :: rest) => pat.isPrefixOf s || containsSub pat rest

/-- The `usedNames` counter map of `generatePreview`. -/
abbrev UsedNames := List (String × Nat)

/-- `usedNames.get(key) || 0`. -/
def usedGet (u : UsedNames) (key : String) : Nat :=
  match u with
  | [] => 0
  | (k, n) :: rest => if k = key then n else usedGet rest key

/-- `usedNames.set(key, n)`. -/
def usedSet (u : UsedNames) (key : String) (n : Nat) : UsedNames :=
  match u with
  | [] => [(key, n)]
  | (k, m) :: rest => if k = key then (key, n) :: rest else (k, m) :: usedSet rest key n

/-- Body of the `generatePreview` loop for one image, threading the
counter map. -/
def previewStep (mode : BulkRenameMode) (pattern : Option String) (aggressive : Bool)
    (u : UsedNames) (image : ImageInfo) : UsedNames × Option BulkRenameItem :=
  match image.sourceNote with
  | none => (u, none)
  | some noteBase =>
    let baseName := generateNewName image mode pattern aggressive
    if mode = .replace ∧
        alreadyFollowsNamingPattern image.file.basename (sanitize noteBase aggressive) then
      (u, none)
    else
      let (u', baseName') :=
        if mode = .pattern ∧ containsSub "{n}".toList (pattern.getD "").toList then
          let count := usedGet u baseName + 1
          (usedSet u baseName count, jsReplace baseName "{n}" (toString count))
        else
          let key := (jsToLower baseName.toList : List Char)
          let keyS : String := ⟨key⟩
          let count := usedGet u keyS + 1
          let u' := usedSet u keyS count
          if 1 < count ∨ mode = .replace then (u', baseName ++ " " ++ toString count)
          else (u', baseName)
      if image.file.basename = baseName' then (u', none)
      else
        (u', some
          { file := image.file
            currentName := image.file.basename
            newName := baseName'
            sourceNote := noteBase
            selected := false
            isGeneric := image.isGeneric })

/-- Loop of `generatePreview` over the filtered images. -/
def previewLoop (mode : BulkRenameMode) (pattern : Option String) (aggressive : Bool)
    (u : UsedNames) : List ImageInfo → List BulkRenameItem
  | [] => []
  | image :: rest =>
    match previewStep mode pattern aggressive u image with
    | (u', none) => previewLoop mode pattern aggressive u' rest
    | (u', some item) => item :: previewLoop mode pattern aggressive u' rest

/-- `BulkRenameService.generatePreview`. -/
def generatePreview (images : List ImageInfo) (mode : BulkRenameMode) (filter : ImageFilter)
    (pattern : Option String) (aggressive : Bool) : List BulkRenameItem :=
  previewLoop mode pattern aggressive [] (filterImages images filter)

/-- `BulkRenameResult` (types/bulk-rename.ts). -/
structure BulkRenameResult where
  success : Nat
  failed : Nat
  errors : List String
  deriving Repr, DecidableEq

/-- Target path `"{parent}/{name}.{ext}"` for a rename
(`item.file.parent?.path ? ... : ...`; an empty parent path is falsy). -/
def renameTarget (file : BFile) (name : String) : String :=
  match file.parent with
  | some pp => if pp = "" then name ++ "." ++ file.extension
               else pp ++ "/" ++ name ++ "." ++ file.extension
  | none => name ++ "." ++ file.extension

/-- Termination hypothesis for the collision probe of `executeBulkRename`:
at every step some `" {n}"`-suffixed alternative is free.  `lookup i p`
models `vault.getAbstractFileByPath(p) !== null` as observed while the
`i`-th selected item is processed (the vault may mutate between steps). -/
def ExecProbeHyp (lookup : Nat → String → Bool) : Prop :=
  ∀ i : Nat, ∀ it : BulkRenameItem,
    ∃ k, lookup i (renameTarget it.file (it.newName ++ " " ++ toString (k + 1))) = false

/-- Loop body state of `executeBulkRename`: the running result plus (as
observational instrumentation of the model, not a source field) the list of
`fileManager.renameFile` calls issued, each with its item and target
path. -/
structure ExecState where
  result : BulkRenameResult
  attempts : List (BulkRenameItem × String)
  deriving Repr, DecidableEq

/-- Effect of processing one selected item with differing names: compute
the target (probing `" {n}"` suffixes when the direct target exists), issue
the rename, and record success or the caught failure. -/
def execStep (lookup : Nat → String → Bool) (renameThrows : Nat → Bool)
    (h : ExecProbeHyp lookup) (i : Nat) (item : BulkRenameItem) (st : ExecState) : ExecState :=
  let newPath := renameTarget item.file item.newName
  let target :=
    if lookup i newPath then
      renameTarget item.file (item.newName ++ " " ++ toString (Nat.find (h i item) + 1))
    else newPath
  if renameThrows i then
    { result :=
        { success := st.result.success
          failed := st.result.failed + 1
          errors := st.result.errors ++ ["Failed to rename " ++ item.currentName] }
      attempts := st.attempts ++ [(item, target)] }
  else
    { result :=
        { success := st.result.success + 1
          failed := st.result.failed
          errors := st.result.errors }
      attempts := st.attempts ++ [(item, target)] }

/-- Loop of `executeBulkRename` over the selected items.  `i` counts the
selected items processed so far; `renameThrows i` says whether the `i`-th
rename call throws. -/
def execLoop (lookup : Nat → String → Bool) (renameThrows : Nat → Bool)
    (h : ExecProbeHyp lookup) (i : Nat) (st : ExecState) :
    List BulkRenameItem → ExecState
  | [] => st
  | item :: rest =>
    if item.currentName = item.newName then
      execLoop lookup renameThrows h (i + 1) st rest
    else
      execLoop lookup renameThrows h (i + 1) (execStep lookup renameThrows h i item st) rest

/-- `BulkRenameService.executeBulkRename`: process the `selected` items,
skipping unchanged names, resolving collisions by probing `" {n}"`
suffixes, catching each rename failure per item and continuing. -/
def executeBulkRename (lookup : Nat → String → Bool) (renameThrows : Nat → Bool)
    (items : List BulkRenameItem) (h : ExecProbeHyp lookup) : ExecState :=
  execLoop lookup renameThrows h 0 ⟨⟨0, 0, []⟩, []⟩ (items.filter (·.selected))

/-! ### Soundness of the scan loop -/

/-- Every entry reported by `scanAux` is a match of `m` on the
corresponding suffix of the scanned text. -/
theorem scanAux_sound {G : Type} {m : List Char → Option (G × Nat)} :
    ∀ {fuel : Nat} {s : List Char} {i j : Nat} {g : G} {len : Nat},
      (j, g, len) ∈ scanAux m fuel s i → i ≤ j ∧ m (s.drop (j - i)) = some (g, len) := by
  intro fuel
  induction fuel with
  | zero => intro s i j g len h; simp [scanAux] at h
  | succ fuel ih =>
    intro s i j g len h
    match s with
    | [] => simp [scanAux] at h
    | c :: rest =>
      rw [scanAux] at h
      cases hm : m (c :: rest) with
      | some p =>
        obtain ⟨g0, len0⟩ := p
        rw [hm] at h
        rcases List.mem_cons.mp h with h | h
        · obtain ⟨hj, hg, hlen⟩ : j = i ∧ g = g0 ∧ len = len0 := by simpa using h
          subst hj; subst hg; subst hlen
          simpa using hm
        · obtain ⟨h1, h2⟩ := ih h
          refine ⟨by omega, ?_⟩
          rw [List.drop_drop] at h2
          have he : len0 + (j - (i + len0)) = j - i := by omega
          rwa [he] at h2
      | none =>
        rw [hm] at h
        obtain ⟨h1, h2⟩ := ih h
        refine ⟨by omega, ?_⟩
        have he : j - i = (j - (i + 1)) + 1 := by omega
        rw [he, List.drop_succ_cons]
        exact h2

/-- `scan` reports only genuine matches at their indices. -/
theorem scan_sound {G : Type} {m : List Char → Option (G × Nat)} {s : List Char}
    {j : Nat} {g : G} {len : Nat} (h : (j, g, len) ∈ scan m s) :
    m (s.drop j) = some (g, len) := by
  simpa using (scanAux_sound (m := m) h).2

/-- A grammar that matches no suffix of `s` yields no scan entries. -/
theorem scanAux_nil {G : Type} {m : List Char → Option (G × Nat)} :
    ∀ {fuel : Nat} {s : List Char} {i : Nat}, (∀ s', s' <:+ s → m s' = none) →
      scanAux m fuel s i = [] := by
  intro fuel
  induction fuel with
  | zero => intro s i _; rfl
  | succ fuel ih =>
    intro s i hnone
    match s with
    | [] => rfl
    | c :: rest =>
      rw [scanAux, hnone (c :: rest) (List.suffix_refl _)]
      exact ih fun s' hs' => hnone s' (hs'.trans (List.suffix_cons c rest))

/-- When `m` consumes all of `s` at the start, the scan reports exactly
that one match. -/
theorem scanAux_all {G : Type} {m : List Char → Option (G × Nat)} {fuel : Nat}
    {s : List Char} {i : Nat} {g : G} (hs : s ≠ []) (hm : m s = some (g, s.length)) :
    scanAux m (fuel + 1) s i = [(i, g, s.length)] := by
  match s with
  | c :: rest =>
    simp only [scanAux, hm, List.drop_length]
    cases fuel <;> rfl
theorem takeWhile_le {p : Char → Bool} {l : List Char} : (l.takeWhile p).length ≤ l.length :=
  (List.takeWhile_prefix p).sublist.length_le

theorem wikiTail_len {s : List Char} {cap sz : Option (List Char)} {t : Nat}
    (h : wikiTail s = some (cap, sz, t)) : 0 < t ∧ t ≤ s.length := by
  unfold wikiTail at h
  split at h
  · obtain ⟨h1, h2, h3⟩ : none = cap ∧ none = sz ∧ 2 = t := by simpa using h
    subst h3
    simp
  case _ rest =>
    simp only [] at h
    split at h
    case _ tl heq =>
      obtain ⟨h1, h2, h3⟩ :
          some (rest.takeWhile wikiPathChar) = cap ∧ none = sz ∧
            1 + (rest.takeWhile wikiPathChar).length + 2 = t := by simpa using h
      subst h3
      have hlen := congrArg List.length heq
      simp [List.length_drop] at hlen
      have := takeWhile_le (p := wikiPathChar) (l := rest)
      simp
      omega
    case _ r3 heq =>
      split at h
      · exact absurd h (by simp)
      case _ hne =>
        split at h
        case _ tl2 heq2 =>
          obtain ⟨h1, h2, h3⟩ :
              some (rest.takeWhile wikiPathChar) = cap ∧ some (r3.takeWhile jsDigit) = sz ∧
                1 + (rest.takeWhile wikiPathChar).length + 1 + (r3.takeWhile jsDigit).length + 2 = t := by
            simpa using h
          subst h3
          have hlen := congrArg List.length heq
          simp [List.length_drop] at hlen
          have hlen2 := congrArg List.length heq2
          simp [List.length_drop] at hlen2
          have t1 := takeWhile_le (p := wikiPathChar) (l := rest)
          have t2 := takeWhile_le (p := jsDigit) (l := r3)
          simp
          omega
        · exact absurd h (by simp)
    · exact absurd h (by simp)
  · exact absurd h (by simp)
/-- `wikiImageMatch` consumes a positive number of characters, at most all
of them. -/
theorem wikiImageMatch_len {s : List Char} {g : WikiGroups} {len : Nat}
    (h : wikiImageMatch s = some (g, len)) : 0 < len ∧ len ≤ s.length := by
  unfold wikiImageMatch at h
  split at h
  case _ rest =>
    simp only [] at h
    split at h
    · exact absurd h (by simp)
    · split at h
      · split at h
        case _ cap sz tlen heq =>
          obtain ⟨h1, h2⟩ : (⟨rest.takeWhile wikiPathChar, cap, sz⟩ : WikiGroups) = g ∧
              3 + (rest.takeWhile wikiPathChar).length + tlen = len := by simpa using h
          subst h2
          have ⟨ht1, ht2⟩ := wikiTail_len heq
          simp [List.length_drop] at ht2
          have t1 := takeWhile_le (p := wikiPathChar) (l := rest)
          simp
          omega
        · exact absurd h (by simp)
      · exact absurd h (by simp)
  · exact absurd h (by simp)

/-- `wikiNoExtMatch` consumes a positive number of characters, at most all
of them. -/
theorem wikiNoExtMatch_len {s : List Char} {g : WikiGroups} {len : Nat}
    (h : wikiNoExtMatch s = some (g, len)) : 0 < len ∧ len ≤ s.length := by
  unfold wikiNoExtMatch at h
  split at h
  case _ rest =>
    simp only [] at h
    split at h
    · exact absurd h (by simp)
    · split at h
      case _ cap sz tlen heq =>
        obtain ⟨h1, h2⟩ : (⟨rest.takeWhile wikiPathChar, cap, sz⟩ : WikiGroups) = g ∧
            3 + (rest.takeWhile wikiPathChar).length + tlen = len := by simpa using h
        subst h2
        have ⟨ht1, ht2⟩ := wikiTail_len heq
        simp [List.length_drop] at ht2
        have t1 := takeWhile_le (p := wikiPathChar) (l := rest)
        simp
        omega
      · exact absurd h (by simp)
  · exact absurd h (by simp)

/-- `mdImageMatch` consumes a positive number of characters, at most all of
them. -/
theorem mdImageMatch_len {s : List Char} {g : MdGroups} {len : Nat}
    (h : mdImageMatch s = some (g, len)) : 0 < len ∧ len ≤ s.length := by
  unfold mdImageMatch at h
  split at h
  case _ rest =>
    simp only [] at h
    split at h
    case _ r2 heq =>
      split at h
      · exact absurd h (by simp)
      · split at h
        · split at h
          case _ tl heq2 =>
            obtain ⟨h1, h2⟩ : (⟨rest.takeWhile (· ≠ ']'), r2.takeWhile mdPathChar⟩ : MdGroups) = g ∧
                2 + (rest.takeWhile (· ≠ ']')).length + 2 + (r2.takeWhile mdPathChar).length + 1 = len := by
              simpa using h
            subst h2
            have hlen := congrArg List.length heq
            simp [List.length_drop] at hlen
            have hlen2 := congrArg List.length heq2
            simp [List.length_drop] at hlen2
            have t1 := takeWhile_le (p := (· ≠ ']')) (l := rest)
            have t2 := takeWhile_le (p := mdPathChar) (l := r2)
            simp
            omega
          case _ c r3 hnp heq2 =>
            split at h
            case _ hsp =>
              split at h
              case _ r4 heq3 =>
                split at h
                case _ tl4 heq4 =>
                  obtain ⟨h1, h2⟩ : (⟨rest.takeWhile (· ≠ ']'), r2.takeWhile mdPathChar⟩ : MdGroups) = g ∧
                      2 + (rest.takeWhile (· ≠ ']')).length + 2 + (r2.takeWhile mdPathChar).length +
                        ((c :: r3).takeWhile jsSpace).length + 1 + (r4.takeWhile (· ≠ '"')).length + 2 = len := by
                    simpa using h
                  subst h2
                  have hlen := congrArg List.length heq
                  simp [List.length_drop] at hlen
                  have hlen2 := congrArg List.length heq2
                  simp [List.length_drop] at hlen2
                  have hlen3 := congrArg List.length heq3
                  simp [List.length_drop] at hlen3
                  have hlen4 := congrArg List.length heq4
                  simp [List.length_drop] at hlen4
                  have t1 := takeWhile_le (p := (· ≠ ']')) (l := rest)
                  have t2 := takeWhile_le (p := mdPathChar) (l := r2)
                  have t3 := takeWhile_le (p := jsSpace) (l := c :: r3)
                  have t4 := takeWhile_le (p := (· ≠ '"')) (l := r4)
                  simp at t3 ⊢
                  omega
                · exact absurd h (by simp)
              · exact absurd h (by simp)
            · exact absurd h (by simp)
          · exact absurd h (by simp)
        · exact absurd h (by simp)
    · exact absurd h (by simp)
  · exact absurd h (by simp)

/-! ### Well-formedness of parsed links -/

/-- Every link of `parseImageLinks` spans a real, non-empty slice of the
text, and `fullMatch` is exactly that slice. -/
theorem parseImageLinks_spans {content : List Char} {l : ImageLink}
    (h : l ∈ parseImageLinks content) :
    l.start < l.stop ∧ l.stop ≤ content.length ∧
      l.fullMatch = (content.drop l.start).take (l.stop - l.start) ∧
      l.stop = l.start + l.fullMatch.length := by
  rw [parseImageLinks, (List.perm_insertionSort _ _).mem_iff, List.mem_append] at h
  rcases h with h | h <;> rw [List.mem_map] at h
  · obtain ⟨⟨j, g, len⟩, hmem, rfl⟩ := h
    have hsound := scan_sound hmem
    have ⟨hpos, hle⟩ := wikiImageMatch_len hsound
    rw [List.length_drop] at hle
    refine ⟨by simp [mkWikiLink]; omega, by simp [mkWikiLink]; omega, ?_, ?_⟩
    · simp [mkWikiLink]
    · simp [mkWikiLink, List.length_take, List.length_drop]
      omega
  · obtain ⟨⟨j, g, len⟩, hmem, rfl⟩ := h
    have hsound := scan_sound hmem
    have ⟨hpos, hle⟩ := mdImageMatch_len hsound
    rw [List.length_drop] at hle
    refine ⟨by simp [mkMdLink]; omega, by simp [mkMdLink]; omega, ?_, ?_⟩
    · simp [mkMdLink]
    · simp [mkMdLink, List.length_take, List.length_drop]
      omega

/-- Every link of `parseAllWikiLinks` spans a real, non-empty slice of the
text, and `fullMatch` is exactly that slice. -/
theorem parseAllWikiLinks_spans {content : List Char} {l : ImageLink}
    (h : l ∈ parseAllWikiLinks content) :
    l.start < l.stop ∧ l.stop ≤ content.length ∧
      l.fullMatch = (content.drop l.start).take (l.stop - l.start) ∧
      l.stop = l.start + l.fullMatch.length := by
  rw [parseAllWikiLinks, List.mem_map] at h
  obtain ⟨⟨j, g, len⟩, hmem, rfl⟩ := h
  have hsound := scan_sound hmem
  have ⟨hpos, hle⟩ := wikiNoExtMatch_len hsound
  rw [List.length_drop] at hle
  refine ⟨by simp [mkWikiLink]; omega, by simp [mkWikiLink]; omega, ?_, ?_⟩
  · simp [mkWikiLink]
  · simp [mkWikiLink, List.length_take, List.length_drop]
    omega

/-- Any link located by `findImageLink` (through either the primary parse
or the extension-less fallback) spans a real slice of the text. -/
theorem findImageLink_spans {content imagePath : List Char} {l : ImageLink}
    (h : findImageLink content imagePath = some l) :
    l.start < l.stop ∧ l.stop ≤ content.length ∧
      l.fullMatch = (content.drop l.start).take (l.stop - l.start) ∧
      l.stop = l.start + l.fullMatch.length := by
  rw [findImageLink] at h
  simp only [] at h
  split at h
  case _ found heq =>
    cases h
    exact parseImageLinks_spans (List.mem_of_find?_eq_some heq)
  case _ heq =>
    split at h
    · exact parseAllWikiLinks_spans (List.mem_of_find?_eq_some h)
    · exact absurd h (by simp)

/-! ### Claim C9 -/

instance : IsTotal ImageLink (fun a b => a.start ≤ b.start) :=
  ⟨fun a b => Nat.le_total a.start b.start⟩

instance : IsTrans ImageLink (fun a b => a.start ≤ b.start) :=
  ⟨fun _ _ _ => Nat.le_trans⟩

/-- C9: every `ImageLink` returned by `parseImageLinks` satisfies
`end > start` and `text[start:end] == fullMatch`, and the returned list is
sorted by start offset in ascending order. -/
theorem c9_parse_invariants (text : List Char) (l : ImageLink)
    (hl : l ∈ parseImageLinks text) :
    (l.start < l.stop ∧ (text.drop l.start).take (l.stop - l.start) = l.fullMatch) ∧
      List.Pairwise (fun a b => a.start ≤ b.start) (parseImageLinks text) := by
  obtain ⟨h1, h2, h3, h4⟩ := parseImageLinks_spans hl
  refine ⟨⟨h1, h3.symm⟩, ?_⟩
  rw [parseImageLinks]
  exact List.sorted_insertionSort (fun a b : ImageLink => a.start ≤ b.start)
    ((scan wikiImageMatch text).map (mkWikiLink text) ++
      (scan mdImageMatch text).map (mkMdLink text))

/-- Witness for C9 at a concrete document containing a wiki and a markdown
link. -/
theorem c9_parse_invariants_witness :
    (0 < 10 ∧ (("![[a.png]] ![b](c.jpg)".toList.drop 0).take (10 - 0) = "![[a.png]]".toList)) ∧
      List.Pairwise (fun a b => a.start ≤ b.start) (parseImageLinks "![[a.png]] ![b](c.jpg)".toList) := by
  have := c9_parse_invariants "![[a.png]] ![b](c.jpg)".toList
    { fullMatch := "![[a.png]]".toList
      filePath := "a.png".toList
      caption := none
      size := none
      type := .wiki
      start := 0
      stop := 10 }
    (by rw [parseImageLinks, (List.perm_insertionSort _ _).mem_iff]; decide)
  exact ⟨⟨this.1.1, this.1.2⟩, this.2⟩

/-! ### Claim C8 -/

/-- C8 counterexample: aggressive sanitization of `"Caffè & Città"` does
not yield `"cafe_citta"` (the double `f` of "Caffè" survives). -/
theorem c8_counterexample :
    sanitizeFilename "Caffè & Città".toList true ≠ "cafe_citta".toList := by decide

/-- C8 (amended): aggressive sanitization of `"Caffè & Città"` yields
`"caffe_citta"`; non-aggressive sanitization leaves it unchanged. -/
theorem c8_sanitize_scenario :
    sanitizeFilename "Caffè & Città".toList true = "caffe_citta".toList ∧
      sanitizeFilename "Caffè & Città".toList false = "Caffè & Città".toList := by decide

instance exceptDecEq {e a : Type} [DecidableEq e] [DecidableEq a] : DecidableEq (Except e a) :=
  fun x y =>
  match x, y with
  | .error u, .error v =>
    if h : u = v then isTrue (by rw [h]) else isFalse (by intro hh; cases hh; exact h rfl)
  | .ok u, .ok v =>
    if h : u = v then isTrue (by rw [h]) else isFalse (by intro hh; cases hh; exact h rfl)
  | .error _, .ok _ => isFalse (by intro hh; cases hh)
  | .ok _, .error _ => isFalse (by intro hh; cases hh)

/-! ### Claim C1 -/

/-- C1: evaluation at the failing input.  After a snapshot of
`"![[image.png]]"`, editing the text to `"![[image.png|New caption]]"`
(a caption-only edit) makes `detectRemovedLinks` report `image.png` as
removed: the tracker's wikilink grammar captures `image.png|New caption`
as the path, which fails the image-extension filter, so the new snapshot
set is empty.  The repository's own tests
(`should NOT detect removal when caption is added`, and
`should extract path only from wiki-links with caption` expecting
`Set(['image.png'])`) require the opposite. -/
theorem c1_caption_edit_reports_removal :
    (do
      let st1 ← updateCacheE [] "note.md".toList "![[image.png]]".toList
      detectRemovedLinksE st1 "note.md".toList "![[image.png|New caption]]".toList)
      = Except.ok (["image.png".toList], [("note.md".toList, [])]) := by decide

/-! ### Claims C3 and C6: counterexamples -/

/-- C3 counterexample: the tracker's `extractImageLinks` calls
`decodeURIComponent` without a catch on every markdown-matched target, so
a malformed percent-escape makes it throw rather than return. -/
theorem c3_counterexample :
    extractImageLinksE "![](a%zz.png)".toList = Except.error () := by decide

/-- C6 counterexample: `removeCaption` is not idempotent.  On
`"![[a.png|![[a.png|c]]"` the first removal rewrites the inner embed,
producing `"![[a.png|![[a.png]]"`, which now parses as a single link to
`a.png` whose caption is `![[a.png`; the second removal therefore rewrites
again, yielding `"![[a.png]]"`. -/
theorem c6_counterexample :
    removeCaption (removeCaption "![[a.png|![[a.png|c]]".toList "a.png".toList) "a.png".toList ≠
      removeCaption "![[a.png|![[a.png|c]]".toList "a.png".toList := by decide

/-! ### Claim C4 -/

/-- C4: `getAvailablePath` never returns a path the existence check holds
at call time (both modes), and in sequential mode it returns
`"{baseName} {n}.{ext}"` joined to the folder for the smallest free
`n ≥ 1`. -/
theorem c4_available_path (folderPath baseName ts extension : String)
    (check : String → Bool) :
    (∀ h : availHyp .sequential folderPath baseName ts extension check,
      check (getAvailablePath .sequential folderPath baseName ts extension check h) = false ∧
        ∃ n, 1 ≤ n ∧
          getAvailablePath .sequential folderPath baseName ts extension check h =
            seqCandidate folderPath baseName extension n ∧
          check (seqCandidate folderPath baseName extension n) = false ∧
          ∀ m, 1 ≤ m → m < n → check (seqCandidate folderPath baseName extension m) = true) ∧
    (∀ h : availHyp .timestamp folderPath baseName ts extension check,
      check (getAvailablePath .timestamp folderPath baseName ts extension check h) = false) := by
  constructor
  · intro h
    have hspec := Nat.find_spec h
    refine ⟨hspec, Nat.find h + 1, by omega, rfl, hspec, ?_⟩
    intro m hm1 hm2
    have hk := Nat.find_min h (m := m - 1) (by omega)
    have : m - 1 + 1 = m := by omega
    rw [this] at hk
    revert hk
    cases check (seqCandidate folderPath baseName extension m) <;> simp
  · intro h
    rw [getAvailablePath]
    split
    case _ hc => exact Nat.find_spec (h hc)
    case _ hc => simpa using hc

/-- Check used by the C4 witness: exactly `Note 1.png` and `Note 2.png`
exist. -/
def c4check (s : String) : Bool := s = "Note 1.png" ∨ s = "Note 2.png"

/-- Sequential-availability hypothesis for the C4 witness. -/
theorem c4hyp : availHyp .sequential "" "Note" "20250101-000000" "png" c4check :=
  ⟨2, by decide⟩

/-- Witness for C4: with `Note 1.png` and `Note 2.png` existing, sequential
mode returns `Note 3.png`, which the check reports free. -/
theorem c4_available_path_witness :
    c4check (getAvailablePath .sequential "" "Note" "20250101-000000" "png" c4check c4hyp)
        = false ∧
      getAvailablePath .sequential "" "Note" "20250101-000000" "png" c4check c4hyp
        = "Note 3.png" := by
  refine ⟨((c4_available_path "" "Note" "20250101-000000" "png" c4check).1 c4hyp).1, ?_⟩
  have hfind : Nat.find c4hyp = 2 := by
    rw [Nat.find_eq_iff]
    exact ⟨by decide, by decide⟩
  rw [getAvailablePath, hfind]
  decide
/-! ### Claim C10 -/

/-- One processed item appends exactly one rename attempt. -/
theorem execStep_attempts (lookup : Nat → String → Bool) (renameThrows : Nat → Bool)
    (h : ExecProbeHyp lookup) (i : Nat) (item : BulkRenameItem) (st : ExecState) :
    (execStep lookup renameThrows h i item st).attempts.map Prod.fst
      = st.attempts.map Prod.fst ++ [item] := by
  rw [execStep]
  split <;> simp

/-- One processed item adds one to `success + failed` and keeps `failed`
equal in lockstep with the error list. -/
theorem execStep_counts (lookup : Nat → String → Bool) (renameThrows : Nat → Bool)
    (h : ExecProbeHyp lookup) (i : Nat) (item : BulkRenameItem) (st : ExecState) :
    (execStep lookup renameThrows h i item st).result.success
        + (execStep lookup renameThrows h i item st).result.failed
        = st.result.success + st.result.failed + 1 ∧
      (execStep lookup renameThrows h i item st).result.failed + st.result.errors.length
        = (execStep lookup renameThrows h i item st).result.errors.length
          + st.result.failed := by
  rw [execStep]
  split <;> (constructor <;> simp <;> omega)

/-- Invariants of the `executeBulkRename` loop: the renames attempted are
exactly the items with differing names, in order; the failure counter moves
in lockstep with the error list; success and failure counts add up to the
number of attempted items. -/
theorem execLoop_spec (lookup : Nat → String → Bool) (renameThrows : Nat → Bool)
    (h : ExecProbeHyp lookup) :
    ∀ (sel : List BulkRenameItem) (i : Nat) (st : ExecState),
      (execLoop lookup renameThrows h i st sel).attempts.map Prod.fst
          = st.attempts.map Prod.fst ++ sel.filter (fun it => it.currentName ≠ it.newName) ∧
        (execLoop lookup renameThrows h i st sel).result.failed + st.result.errors.length
          = (execLoop lookup renameThrows h i st sel).result.errors.length + st.result.failed ∧
        (execLoop lookup renameThrows h i st sel).result.success
            + (execLoop lookup renameThrows h i st sel).result.failed
          = st.result.success + st.result.failed
            + (sel.filter (fun it => it.currentName ≠ it.newName)).length := by
  intro sel
  induction sel with
  | nil => intro i st; refine ⟨by simp [execLoop], by simp [execLoop]; omega, by simp [execLoop]⟩
  | cons item rest ih =>
    intro i st
    rw [execLoop]
    by_cases heq : item.currentName = item.newName
    · simp only [if_pos heq]
      have := ih (i + 1) st
      simpa [List.filter_cons, heq] using this
    · simp only [if_neg heq]
      obtain ⟨a, b, c⟩ := ih (i + 1) (execStep lookup renameThrows h i item st)
      have ha := execStep_attempts lookup renameThrows h i item st
      have ⟨hc1, hc2⟩ := execStep_counts lookup renameThrows h i item st
      refine ⟨?_, by omega, by rw [c]; simp [List.filter_cons, heq]; omega⟩
      rw [a, ha]
      simp [List.filter_cons, heq]

/-- C10: `executeBulkRename` attempts a rename exactly for the selected
items whose current name differs from the proposed one (in order, for
every behaviour of the vault lookup and of the rename operation), the
failure count equals the length of the error list, and successes plus
failures add up to the number of such items — a per-item failure never
aborts the remaining items. -/
theorem c10_execute_counts (lookup : Nat → String → Bool) (renameThrows : Nat → Bool)
    (items : List BulkRenameItem) (h : ExecProbeHyp lookup) :
    (executeBulkRename lookup renameThrows items h).attempts.map Prod.fst
        = items.filter (fun it => it.selected ∧ it.currentName ≠ it.newName) ∧
      (executeBulkRename lookup renameThrows items h).result.failed
        = (executeBulkRename lookup renameThrows items h).result.errors.length ∧
      (executeBulkRename lookup renameThrows items h).result.success
          + (executeBulkRename lookup renameThrows items h).result.failed
        = (items.filter (fun it => it.selected ∧ it.currentName ≠ it.newName)).length := by
  obtain ⟨a, b, c⟩ := execLoop_spec lookup renameThrows h (items.filter (·.selected)) 0
    ⟨⟨0, 0, []⟩, []⟩
  rw [executeBulkRename]
  have hff : (items.filter (·.selected)).filter (fun it => it.currentName ≠ it.newName)
      = items.filter (fun it => it.selected ∧ it.currentName ≠ it.newName) := by
    rw [List.filter_filter]
    apply List.filter_congr
    intro it _
    by_cases h1 : it.selected <;> by_cases h2 : it.currentName = it.newName <;> simp [h1, h2]
  refine ⟨?_, by simpa using b, ?_⟩
  · rw [a, hff]; simp
  · rw [c, hff]; simp

/-- Items for the C10 witness: one selected-and-renamed item (whose rename
throws), one selected item with an unchanged name, one unselected item,
one selected-and-renamed item that succeeds. -/
def c10items : List BulkRenameItem :=
  [⟨⟨"a", "A", "png", some "f"⟩, "A", "B", "N", true, false⟩,
   ⟨⟨"b", "C", "png", some "f"⟩, "C", "C", "N", true, false⟩,
   ⟨⟨"c", "D", "png", some "f"⟩, "D", "E", "N", false, false⟩,
   ⟨⟨"d", "F", "png", some "f"⟩, "F", "G", "N", true, false⟩]

/-- Witness for C10: an empty vault, with the first rename call throwing. -/
theorem c10_execute_counts_witness :
    (executeBulkRename (fun _ _ => false) (fun i => i = 0) c10items
          (fun _ _ => ⟨0, rfl⟩)).attempts.map Prod.fst
        = c10items.filter (fun it => it.selected ∧ it.currentName ≠ it.newName) ∧
      (executeBulkRename (fun _ _ => false) (fun i => i = 0) c10items
          (fun _ _ => ⟨0, rfl⟩)).result.failed
        = (executeBulkRename (fun _ _ => false) (fun i => i = 0) c10items
            (fun _ _ => ⟨0, rfl⟩)).result.errors.length ∧
      (executeBulkRename (fun _ _ => false) (fun i => i = 0) c10items
            (fun _ _ => ⟨0, rfl⟩)).result.success
          + (executeBulkRename (fun _ _ => false) (fun i => i = 0) c10items
              (fun _ _ => ⟨0, rfl⟩)).result.failed
        = (c10items.filter (fun it => it.selected ∧ it.currentName ≠ it.newName)).length :=
  c10_execute_counts (fun _ _ => false) (fun i => i = 0) c10items (fun _ _ => ⟨0, rfl⟩)
/-! ### Claim C7 -/

/-- An image the replace-mode planner skips without touching any state:
no owning note, or a base name already following
`"{sanitizedNoteName} {digits}"`. -/
def replaceExcluded (im : ImageInfo) (aggressive : Bool) : Bool :=
  match im.sourceNote with
  | none => true
  | some nb => alreadyFollowsNamingPattern im.file.basename (sanitize nb aggressive)

theorem previewStep_of_excluded {im : ImageInfo} {aggressive : Bool}
    (hx : replaceExcluded im aggressive = true) (pattern : Option String) (u : UsedNames) :
    previewStep .replace pattern aggressive u im = (u, none) := by
  rw [previewStep]
  split
  · rfl
  case _ nb heq =>
    have hx' : alreadyFollowsNamingPattern im.file.basename (sanitize nb aggressive) = true := by
      rw [replaceExcluded, heq] at hx
      exact hx
    simp [hx']
theorem previewStep_item_inv {im : ImageInfo} {aggressive : Bool} {pattern : Option String}
    {u u' : UsedNames} {item : BulkRenameItem}
    (h : previewStep .replace pattern aggressive u im = (u', some item)) :
    alreadyFollowsNamingPattern item.currentName (sanitize item.sourceNote aggressive) = false := by
  rw [previewStep] at h
  split at h
  · simp at h
  case _ nb heq =>
    by_cases hg : alreadyFollowsNamingPattern im.file.basename (sanitize nb aggressive) = true
    · simp [hg] at h
    · rw [if_neg (by simp [hg])] at h
      rw [if_neg (by simp)] at h
      simp only [] at h
      simp only [or_true, if_true] at h
      split at h
      · simp at h
      · injection h with hfst hsnd
        injection hsnd with hitem
        rw [← hitem]
        simpa using hg

theorem previewLoop_replace_inv {aggressive : Bool} {pattern : Option String} :
    ∀ (l : List ImageInfo) (u : UsedNames) {item : BulkRenameItem},
      item ∈ previewLoop .replace pattern aggressive u l →
      alreadyFollowsNamingPattern item.currentName (sanitize item.sourceNote aggressive)
        = false := by
  intro l
  induction l with
  | nil => intro u item h; simp [previewLoop] at h
  | cons im rest ih =>
    intro u item h
    rw [previewLoop] at h
    cases hs : previewStep .replace pattern aggressive u im with
    | mk u' opt =>
      rw [hs] at h
      cases opt with
      | none => exact ih u' h
      | some it2 =>
        rcases List.mem_cons.mp h with h | h
        · rw [h]; exact previewStep_item_inv hs
        · exact ih u' h

theorem previewLoop_filter_excluded {aggressive : Bool} {pattern : Option String} :
    ∀ (l : List ImageInfo) (u : UsedNames),
      previewLoop .replace pattern aggressive u
          (l.filter (fun im => ! replaceExcluded im aggressive))
        = previewLoop .replace pattern aggressive u l := by
  intro l
  induction l with
  | nil => intro u; rfl
  | cons im rest ih =>
    intro u
    rw [List.filter_cons]
    by_cases hx : replaceExcluded im aggressive = true
    · rw [if_neg (by simp [hx])]
      rw [ih u]
      conv_rhs => rw [previewLoop]
      rw [previewStep_of_excluded hx]
    · rw [if_pos (by simp [hx])]
      rw [previewLoop, previewLoop]
      cases hs : previewStep .replace pattern aggressive u im with
      | mk u' opt =>
        cases opt with
        | none => dsimp only; exact ih u'
        | some it2 => dsimp only; rw [ih u']

/-- C7: in replace mode the planner emits no item whose current base name
already follows `"{sanitizedNoteBaseName} {digits}"`, and the plan is the
same as if the excluded images (and the note-less ones, which are likewise
skipped without touching any counter) had been removed from the input —
the counters are computed over only the images actually planned. -/
theorem c7_replace_idempotence_guard (images : List ImageInfo) (filter : ImageFilter)
    (pattern : Option String) (aggressive : Bool) :
    (∀ item ∈ generatePreview images .replace filter pattern aggressive,
      alreadyFollowsNamingPattern item.currentName (sanitize item.sourceNote aggressive)
        = false) ∧
      generatePreview images .replace filter pattern aggressive
        = generatePreview (images.filter (fun im => ! replaceExcluded im aggressive))
            .replace filter pattern aggressive := by
  constructor
  · intro item h
    exact previewLoop_replace_inv (filterImages images filter) [] h
  · rw [generatePreview, generatePreview]
    have hcomm : filterImages (images.filter (fun im => ! replaceExcluded im aggressive)) filter
        = (filterImages images filter).filter (fun im => ! replaceExcluded im aggressive) := by
      cases filter with
      | all => rfl
      | generic =>
        simp only [filterImages]
        rw [List.filter_filter, List.filter_filter]
        apply List.filter_congr
        intro im _
        rw [Bool.and_comm]
    rw [hcomm, previewLoop_filter_excluded]

/-- Images for the C7 witness: `Trip 5.png` already follows the pattern
for its note `Trip` and must be excluded without influencing the counters
of the two planned images. -/
def c7images : List ImageInfo :=
  [⟨⟨"att/Trip 5.png", "Trip 5", "png", some "att"⟩, some "Trip", false⟩,
   ⟨⟨"att/Pasted1.png", "Pasted1", "png", some "att"⟩, some "Trip", true⟩,
   ⟨⟨"att/Pasted2.png", "Pasted2", "png", some "att"⟩, some "Trip", true⟩]

/-- Witness for C7 at the concrete batch above: the first planned item is
`Pasted1 → Trip 1`, whose current name does not follow the pattern, and
the plan equals the plan over the batch with the excluded image removed. -/
theorem c7_replace_idempotence_guard_witness :
    alreadyFollowsNamingPattern "Pasted1" (sanitize "Trip" false) = false ∧
      generatePreview c7images .replace .all none false
        = generatePreview (c7images.filter (fun im => ! replaceExcluded im false))
            .replace .all none false := by
  constructor
  · have h1 := (c7_replace_idempotence_guard c7images .all none false).1
      ⟨⟨"att/Pasted1.png", "Pasted1", "png", some "att"⟩, "Pasted1", "Trip 1", "Trip",
        false, true⟩
      (by decide)
    exact h1
  · exact (c7_replace_idempotence_guard c7images .all none false).2
/-! ### Claim C5 -/

/-- Splicing a fresh middle over the span `[s, s + |B|)` of
`t.take s ++ B ++ t.drop e` leaves prefix and suffix intact. -/
theorem splice_frame {t B : List Char} {s e : Nat} (hs : s ≤ t.length) :
    (t.take s ++ B ++ t.drop e).take s = t.take s ∧
      (t.take s ++ B ++ t.drop e).drop (s + B.length) = t.drop e := by
  have hlen : (t.take s).length = s := by
    rw [List.length_take]; omega
  constructor
  · rw [List.append_assoc]
    nth_rewrite 1 [← hlen]
    rw [List.take_left]
  · have hlen2 : (t.take s ++ B).length = s + B.length := by
      rw [List.length_append, hlen]
    rw [← hlen2, List.drop_left]

/-- C5: `setCaption` and `removeCaption` preserve every character outside
the located link's `[start, stop)` span — the prefix survives at
`[0, start)` and the suffix follows the rebuilt link — and when no link is
located both return the input unchanged. -/
theorem c5_rewrite_frame (t target cap : List Char) :
    (findImageLink t target = none →
        setCaption t target cap = t ∧ removeCaption t target = t) ∧
      ∀ l, findImageLink t target = some l →
        (setCaption t target cap).take l.start = t.take l.start ∧
          (setCaption t target cap).drop
              (l.start + (buildImageLink l.filePath (some cap) l.size l.type).length)
            = t.drop l.stop ∧
          (removeCaption t target).take l.start = t.take l.start ∧
          (removeCaption t target).drop
              (l.start + (buildImageLink l.filePath none l.size l.type).length)
            = t.drop l.stop := by
  constructor
  · intro h
    rw [setCaption, removeCaption, h]
    exact ⟨rfl, rfl⟩
  · intro l h
    obtain ⟨h1, h2, _, _⟩ := findImageLink_spans h
    have hs : l.start ≤ t.length := by omega
    rw [setCaption, removeCaption, h]
    exact ⟨(splice_frame hs).1, (splice_frame hs).2, (splice_frame hs).1,
      (splice_frame hs).2⟩

/-- Witness for C5 at `"pre ![[a.png|x]] post"`: framed rewrite around the
located link, and the no-match case on a different target. -/
theorem c5_rewrite_frame_witness :
    (setCaption "pre ![[a.png|x]] post".toList "a.png".toList "new".toList).take 4
        = "pre ![[a.png|x]] post".toList.take 4 ∧
      setCaption "pre ![[a.png|x]] post".toList "b.png".toList "new".toList
        = "pre ![[a.png|x]] post".toList := by
  constructor
  · have h := ((c5_rewrite_frame "pre ![[a.png|x]] post".toList "a.png".toList
      "new".toList).2
      { fullMatch := "![[a.png|x]]".toList
        filePath := "a.png".toList
        caption := some "x".toList
        size := none
        type := .wiki
        start := 4
        stop := 16 }
      (by decide)).1
    exact h
  · exact ((c5_rewrite_frame "pre ![[a.png|x]] post".toList "b.png".toList
      "new".toList).1 (by decide)).1

/-- Splicing the exact `[s, e)` slice back over its own span reproduces the
text. -/
theorem splice_self {t : List Char} {s e : Nat} (hse : s ≤ e) :
    t.take s ++ (t.drop s).take (e - s) ++ t.drop e = t := by
  rw [List.append_assoc]
  have hdd : (t.drop s).drop (e - s) = t.drop e := by
    rw [List.drop_drop]
    congr 1
    omega
  rw [← hdd, List.take_append_drop, List.take_append_drop]

/-- C6 (amended): `removeCaption` applied twice equals `removeCaption`
applied once whenever the link located in the once-rewritten text (if any)
reads back exactly as the canonical caption-free form built from its path,
size and kind — in particular whenever it has no caption and round-trips.
(`c6_counterexample` shows a nested embed violating the side condition.) -/
theorem c6_remove_idempotent_amended (t target : List Char)
    (hcond : ∀ l, findImageLink (removeCaption t target) target = some l →
      l.fullMatch = buildImageLink l.filePath none l.size l.type) :
    removeCaption (removeCaption t target) target = removeCaption t target := by
  cases hf : findImageLink (removeCaption t target) target with
  | none => rw [removeCaption, hf]
  | some l =>
    obtain ⟨h1, h2, h3, _⟩ := findImageLink_spans hf
    conv_lhs => rw [removeCaption, hf]
    dsimp only
    rw [← hcond l hf, h3]
    exact splice_self (by omega)

/-- Witness for C6 at `"![[a.png|c]]"`: the once-rewritten text is
`"![[a.png]]"`, whose located link is caption-free and canonical, so the
second removal is a no-op. -/
theorem c6_remove_idempotent_amended_witness :
    removeCaption (removeCaption "![[a.png|c]]".toList "a.png".toList) "a.png".toList
      = removeCaption "![[a.png|c]]".toList "a.png".toList := by
  apply c6_remove_idempotent_amended
  intro l hl
  have hfind : findImageLink (removeCaption "![[a.png|c]]".toList "a.png".toList)
      "a.png".toList
      = some
        { fullMatch := "![[a.png]]".toList
          filePath := "a.png".toList
          caption := none
          size := none
          type := .wiki
          start := 0
          stop := 10 } := by decide
  rw [hfind] at hl
  injection hl with hl
  rw [← hl]
  decide
/-! ### Claim C3 (amended) -/

/-- The markdown pass of `extractImageLinksE` succeeds exactly when every
matched target decodes. -/
theorem extract_foldlM_isOk :
    ∀ (l : List (Nat × List Char × Nat)) (acc : List (List Char)),
      (List.foldlM (fun acc e =>
          match decodeAux e.2.1 with
          | none => Except.error ()
          | some d => Except.ok (if isImagePath d then addUnique acc d else acc)) acc l
        : Except Unit (List (List Char))).isOk
        = l.all (fun e => (decodeAux e.2.1).isSome) := by
  intro l
  induction l with
  | nil => intro acc; rfl
  | cons e rest ih =>
    intro acc
    rw [List.foldlM_cons, List.all_cons]
    cases hd : decodeAux e.2.1 with
    | none => simp [hd, Bind.bind, Except.bind, Except.isOk, Except.toBool]
    | some d => simp [hd, Bind.bind, Except.bind, ih]

/-- C3 (amended): `findImageLink` tolerates URL-decode failures (the catch
inside `normalizePath` falls back to the raw path), the rewriters are
no-ops when nothing matches, and the tracker's `extractImageLinks`
terminates normally exactly when every markdown-matched target has
well-formed percent-escapes. -/
theorem c3_no_throw_amended :
    (∀ p : List Char, decodeAux p = none →
        normalizePath p = jsToLower ((p.splitOn '/').getLastD [])) ∧
      (∀ t target cap : List Char, findImageLink t target = none →
        setCaption t target cap = t ∧ removeCaption t target = t) ∧
      ∀ content : List Char, (extractImageLinksE content).isOk
        = (scan trackerMdMatch content).all (fun e => (decodeAux e.2.1).isSome) := by
  refine ⟨?_, ?_, ?_⟩
  · intro p h
    rw [normalizePath, h]
    rfl
  · intro t target cap h
    rw [setCaption, removeCaption, h]
    exact ⟨rfl, rfl⟩
  · intro content
    rw [extractImageLinksE]
    exact extract_foldlM_isOk (scan trackerMdMatch content) _

/-- Witness for C3 at concrete inputs: a malformed escape falls back to the
raw lowercased path in `normalizePath`, the rewriters leave a document
without the target unchanged, and the tracker characterization holds for a
document with one decodable markdown target. -/
theorem c3_no_throw_amended_witness :
    normalizePath "a%zz.png".toList
        = jsToLower (("a%zz.png".toList.splitOn '/').getLastD []) ∧
      setCaption "no links".toList "a.png".toList "c".toList = "no links".toList ∧
      (extractImageLinksE "![](ok%20file.png)".toList).isOk
        = (scan trackerMdMatch "![](ok%20file.png)".toList).all
            (fun e => (decodeAux e.2.1).isSome) := by
  refine ⟨c3_no_throw_amended.1 "a%zz.png".toList (by decide),
    (c3_no_throw_amended.2.1 "no links".toList "a.png".toList "c".toList (by decide)).1,
    c3_no_throw_amended.2.2 "![](ok%20file.png)".toList⟩
/-! ### Claim C2: infrastructure -/

/-- A `takeWhile` run over `xs ++ d :: ys` stops exactly at `d` when all of
`xs` satisfies the predicate and `d` does not. -/
theorem takeWhile_all_append {p : Char → Bool} {xs : List Char} {d : Char} (ys : List Char)
    (hall : ∀ c ∈ xs, p c = true) (hd : p d = false) :
    (xs ++ d :: ys).takeWhile p = xs := by
  induction xs with
  | nil => simp [List.takeWhile_cons, hd]
  | cons x xt ih =>
    rw [List.cons_append, List.takeWhile_cons_of_pos (hall x (List.mem_cons_self x xt))]
    rw [ih fun c hc => hall c (List.mem_cons_of_mem x hc)]

/-- A run with a recognized image extension is non-empty. -/
theorem hasImageExt_pos {r : List Char} (h : hasImageExt r = true) : 0 < r.length := by
  rw [hasImageExt, List.any_eq_true] at h
  obtain ⟨e, -, he⟩ := h
  have := (of_decide_eq_true he).1
  omega

/-- A falsy optional string normalizes to `null`. -/
theorem truthy_false_orNull {c : Option (List Char)} (h : truthy c = false) :
    orNull c = none := by
  match c with
  | none => rfl
  | some [] => rfl
  | some (x :: xt) => simp [truthy] at h

/-- A truthy optional string is a non-empty `some`. -/
theorem truthy_true {c : Option (List Char)} (h : truthy c = true) :
    ∃ s, c = some s ∧ s ≠ [] ∧ orNull c = some s := by
  match c with
  | none => simp [truthy] at h
  | some [] => simp [truthy] at h
  | some (x :: xt) => exact ⟨x :: xt, rfl, by simp, rfl⟩

/-- No two adjacent characters of `l` are `a` followed by `b`. -/
def noPair (a b : Char) : List Char → Bool
  | x :: y :: rest => !(x = a ∧ y = b) && noPair a b (y :: rest)
  | _ => true

/-- A list without any occurrence of `a` has no `a`-`b` pair. -/
theorem noPair_of_no_fst {a b : Char} : ∀ {l : List Char}, (∀ c ∈ l, c ≠ a) →
    noPair a b l = true := by
  intro l
  induction l with
  | nil => intro h; rfl
  | cons x xt ih =>
    intro h
    match xt with
    | [] => rfl
    | y :: rest =>
      rw [noPair]
      have hx : x ≠ a := h x (List.mem_cons_self x _)
      have hrec := ih fun c hc => h c (List.mem_cons_of_mem x hc)
      simp [hx, hrec]

/-- `noPair` over an append, when the junction is safe. -/
theorem noPair_append {a b : Char} : ∀ {xs ys : List Char},
    noPair a b xs = true → noPair a b ys = true →
    ¬ (xs.getLast? = some a ∧ ys.head? = some b) → noPair a b (xs ++ ys) = true := by
  intro xs
  induction xs with
  | nil => intro ys _ hy _; simpa using hy
  | cons x xt ih =>
    intro ys hx hy hj
    match xt with
    | [] =>
      match ys with
      | [] => rfl
      | y :: yt =>
        rw [List.cons_append, List.nil_append, noPair]
        have hxy : ¬ (x = a ∧ y = b) := by
          rintro ⟨h1, h2⟩
          exact hj ⟨by simp [h1], by simp [h2]⟩
        simp [hxy, hy]
    | z :: zt =>
      rw [List.cons_append, List.cons_append, noPair, ← List.cons_append]
      rw [noPair, Bool.and_eq_true] at hx
      obtain ⟨h1, h2⟩ := hx
      rw [Bool.and_eq_true]
      refine ⟨h1, ih h2 hy ?_⟩
      rintro ⟨hl, hh⟩
      apply hj
      refine ⟨?_, hh⟩
      rw [List.getLast?_cons_cons]
      exact hl
/-- A pair-free list has no `[a, b]` infix. -/
theorem noPair_not_sub {a b : Char} : ∀ {l : List Char}, noPair a b l = true →
    ¬ ([a, b] <:+: l) := by
  intro l
  induction l with
  | nil => intro _ h; simpa using h.length_le
  | cons x xt ih =>
    intro hnp hinf
    rcases List.infix_cons_iff.mp hinf with h | h
    · rw [List.cons_prefix_cons] at h
      obtain ⟨rfl, h⟩ := h
      match xt, h with
      | y :: yt, h =>
        rw [List.cons_prefix_cons] at h
        obtain ⟨rfl, -⟩ := h
        rw [noPair] at hnp
        simp at hnp
    · match xt with
      | [] => simpa using h.length_le
      | y :: yt =>
        rw [noPair, Bool.and_eq_true] at hnp
        exact ih hnp.2 h

/-- A successful `wikiTail` requires a `"]]"` somewhere in its input. -/
theorem wikiTail_sub {s : List Char} {g : Option (List Char) × Option (List Char) × Nat}
    (h : wikiTail s = some g) : [']', ']'] <:+: s := by
  unfold wikiTail at h
  split at h
  · exact (List.prefix_iff_eq_take.mpr rfl).isInfix
  case _ rest =>
    simp only [] at h
    split at h
    case _ tl heq =>
      have h1 : [']', ']'] <+: (rest.drop (rest.takeWhile wikiPathChar).length) := by
        rw [heq]; simp
      exact ((h1.isInfix.trans (List.drop_suffix _ _).isInfix).trans
        (List.suffix_cons '|' rest).isInfix)
    case _ r3 heq =>
      split at h
      · exact absurd h (by simp)
      · split at h
        case _ tl2 heq2 =>
          have h1 : [']', ']'] <+: (r3.drop (r3.takeWhile jsDigit).length) := by
            rw [heq2]; simp
          have h2 : r3 <:+ rest := by
            have : '|' :: r3 <:+ rest := by
              rw [← heq]; exact List.drop_suffix _ _
            exact (List.suffix_cons '|' r3).trans this
          exact ((h1.isInfix.trans (List.drop_suffix _ _).isInfix).trans
            (h2.isInfix.trans (List.suffix_cons '|' rest).isInfix))
        · exact absurd h (by simp)
    · exact absurd h (by simp)
  · exact absurd h (by simp)

/-- A successful `wikiImageMatch` requires a `"]]"` somewhere in its
input. -/
theorem wikiImageMatch_sub {s : List Char} {g : WikiGroups × Nat}
    (h : wikiImageMatch s = some g) : [']', ']'] <:+: s := by
  unfold wikiImageMatch at h
  split at h
  case _ rest =>
    simp only [] at h
    split at h
    · exact absurd h (by simp)
    · split at h
      · split at h
        case _ cap sz tlen heq =>
          have h1 := wikiTail_sub heq
          have h2 : rest.drop (rest.takeWhile wikiPathChar).length <:+ rest :=
            List.drop_suffix _ _
          have h3 : rest <:+ '!' :: '[' :: '[' :: rest :=
            (List.suffix_cons '[' rest).trans
              ((List.suffix_cons '[' ('[' :: rest)).trans
                (List.suffix_cons '!' ('[' :: '[' :: rest)))
          exact (h1.trans h2.isInfix).trans h3.isInfix
        · exact absurd h (by simp)
      · exact absurd h (by simp)
  · exact absurd h (by simp)

/-- A successful `mdImageMatch` requires a `"]("` somewhere in its
input. -/
theorem mdImageMatch_sub {s : List Char} {g : MdGroups × Nat}
    (h : mdImageMatch s = some g) : [']', '('] <:+: s := by
  unfold mdImageMatch at h
  split at h
  case _ rest =>
    simp only [] at h
    split at h
    case _ r2 heq =>
      have h1 : [']', '('] <+: (rest.drop (rest.takeWhile (· ≠ ']')).length) := by
        rw [heq]; simp
      have h2 : rest <:+ '!' :: '[' :: rest :=
        (List.suffix_cons '[' rest).trans (List.suffix_cons '!' ('[' :: rest))
      exact (h1.isInfix.trans (List.drop_suffix _ _).isInfix).trans h2.isInfix
    · exact absurd h (by simp)
  · exact absurd h (by simp)
/-- No markdown image match survives anywhere in a text without a `"]("`
pair. -/
theorem scan_md_nil {s : List Char} (h : noPair ']' '(' s = true) :
    scan mdImageMatch s = [] := by
  apply scanAux_nil
  intro s' hs'
  cases hm : mdImageMatch s' with
  | none => rfl
  | some g =>
    exact absurd ((mdImageMatch_sub hm).trans hs'.isInfix) (noPair_not_sub h)

/-- No wiki image match survives anywhere in a text without a `"]]"`
pair. -/
theorem scan_wiki_nil {s : List Char} (h : noPair ']' ']' s = true) :
    scan wikiImageMatch s = [] := by
  apply scanAux_nil
  intro s' hs'
  cases hm : wikiImageMatch s' with
  | none => rfl
  | some g =>
    exact absurd ((wikiImageMatch_sub hm).trans hs'.isInfix) (noPair_not_sub h)

/-- The wiki path/caption class excludes `]`. -/
theorem wikiPathChar_ne_rb {c : Char} (h : wikiPathChar c = true) : c ≠ ']' := by
  intro heq
  subst heq
  simp [wikiPathChar] at h

/-- The wiki path/caption class excludes `|`. -/
theorem wikiPathChar_ne_pipe {c : Char} (h : wikiPathChar c = true) : c ≠ '|' := by
  intro heq
  subst heq
  simp [wikiPathChar] at h

/-- Digits are not `]`. -/
theorem jsDigit_ne_rb {c : Char} (h : jsDigit c = true) : c ≠ ']' := by
  intro heq
  subst heq
  simp [jsDigit] at h

/-- `noPair` append with a safe right head. -/
theorem noPair_append_head {a b : Char} {xs ys : List Char} (hx : noPair a b xs = true)
    (hy : noPair a b ys = true) (hh : ∀ c, ys.head? = some c → c ≠ b) :
    noPair a b (xs ++ ys) = true := by
  refine noPair_append hx hy ?_
  rintro ⟨-, h2⟩
  exact hh b h2 rfl

/-- `noPair` append with a safe left end. -/
theorem noPair_append_last {a b : Char} {xs ys : List Char} (hx : noPair a b xs = true)
    (hy : noPair a b ys = true) (hl : ∀ c, xs.getLast? = some c → c ≠ a) :
    noPair a b (xs ++ ys) = true := by
  refine noPair_append hx hy ?_
  rintro ⟨h1, -⟩
  exact hl a h1 rfl
/-- `wikiTail` on the bare `"]]"` terminator. -/
theorem wikiTail_t1 : wikiTail [']', ']'] = some (none, none, 2) := rfl

/-- `wikiTail` on `"|caption]]"`. -/
theorem wikiTail_t2 {cap : List Char} (hc : ∀ c ∈ cap, wikiPathChar c = true) :
    wikiTail ('|' :: (cap ++ [']', ']'])) = some (some cap, none, 1 + cap.length + 2) := by
  unfold wikiTail
  simp only []
  rw [takeWhile_all_append [']'] hc (by decide)]
  rw [List.drop_left]
  rfl

/-- `wikiTail` on `"||size]]"`. -/
theorem wikiTail_t3 {sz : List Char} (hz : ∀ c ∈ sz, jsDigit c = true) (hne : sz ≠ []) :
    wikiTail ('|' :: '|' :: (sz ++ [']', ']'])) = some (some [], some sz, 4 + sz.length) := by
  unfold wikiTail
  simp only []
  have h0 : List.takeWhile wikiPathChar ('|' :: (sz ++ [']', ']'])) = [] :=
    List.takeWhile_cons_of_neg (by decide)
  rw [h0]
  simp only [List.length_nil, List.drop_zero]
  rw [takeWhile_all_append [']'] hz (by decide)]
  rw [List.drop_left]
  rw [if_neg (by simp [List.isEmpty_iff, hne])]
  simp
  omega

/-- `wikiTail` on `"|caption|size]]"`. -/
theorem wikiTail_t4 {cap sz : List Char} (hc : ∀ c ∈ cap, wikiPathChar c = true)
    (hz : ∀ c ∈ sz, jsDigit c = true) (hne : sz ≠ []) :
    wikiTail ('|' :: (cap ++ '|' :: (sz ++ [']', ']'])))
      = some (some cap, some sz, 1 + cap.length + 1 + sz.length + 2) := by
  unfold wikiTail
  simp only []
  rw [takeWhile_all_append (sz ++ [']', ']']) hc (by decide)]
  rw [List.drop_left]
  simp only []
  rw [takeWhile_all_append [']'] hz (by decide)]
  rw [List.drop_left]
  rw [if_neg (by simp [List.isEmpty_iff, hne])]
  rfl
/-- `wikiImageMatch` at the head of a canonical wiki link: the target run
stops at the first delimiter and the tail matcher consumes the rest. -/
theorem wikiImageMatch_build {path : List Char} {d : Char} {rest2 : List Char}
    {cg zg : Option (List Char)}
    (hp : ∀ c ∈ path, wikiPathChar c = true) (hx : hasImageExt path = true)
    (hd : wikiPathChar d = false)
    (ht : wikiTail (d :: rest2) = some (cg, zg, (d :: rest2).length)) :
    wikiImageMatch ('!' :: '[' :: '[' :: (path ++ d :: rest2))
      = some (⟨path, cg, zg⟩, 3 + path.length + (d :: rest2).length) := by
  unfold wikiImageMatch
  simp only []
  rw [takeWhile_all_append rest2 hp hd]
  have hpos := hasImageExt_pos hx
  rw [if_neg (by simp [List.isEmpty_iff]; intro h; subst h; simp at hpos)]
  rw [if_pos hx]
  rw [List.drop_left]
  rw [ht]

/-- `mdImageMatch` at the head of a canonical markdown link. -/
theorem mdImageMatch_build {alt path : List Char}
    (ha : ∀ c ∈ alt, c ≠ ']')
    (hp : ∀ c ∈ path, mdPathChar c = true) (hx : hasImageExt path = true) :
    mdImageMatch ('!' :: '[' :: (alt ++ ']' :: '(' :: (path ++ [')'])))
      = some (⟨alt, path⟩, 2 + alt.length + 2 + path.length + 1) := by
  unfold mdImageMatch
  simp only []
  rw [takeWhile_all_append ('(' :: (path ++ [')'])) (fun c hc => by simp [ha c hc]) (by decide)]
  rw [List.drop_left]
  simp only []
  rw [takeWhile_all_append [] hp (by decide)]
  have hpos := hasImageExt_pos hx
  rw [if_neg (by simp [List.isEmpty_iff]; intro h; subst h; simp at hpos)]
  rw [if_pos hx]
  rw [List.drop_left]
  rfl
/-- Parsing a text that consists of exactly one canonical wiki link yields
exactly that link. -/
theorem parse_wiki_single {path : List Char} {d : Char} {rest2 : List Char}
    {cg zg : Option (List Char)}
    (hp : ∀ c ∈ path, wikiPathChar c = true) (hx : hasImageExt path = true)
    (hd : wikiPathChar d = false)
    (ht : wikiTail (d :: rest2) = some (cg, zg, (d :: rest2).length))
    (hnp : noPair ']' '(' ('!' :: '[' :: '[' :: (path ++ d :: rest2)) = true) :
    parseImageLinks ('!' :: '[' :: '[' :: (path ++ d :: rest2))
      = [{ fullMatch := '!' :: '[' :: '[' :: (path ++ d :: rest2)
           filePath := path
           caption := orNull cg
           size := orNull zg
           type := .wiki
           start := 0
           stop := ('!' :: '[' :: '[' :: (path ++ d :: rest2)).length }] := by
  have hm : wikiImageMatch ('!' :: '[' :: '[' :: (path ++ d :: rest2))
      = some (⟨path, cg, zg⟩, ('!' :: '[' :: '[' :: (path ++ d :: rest2)).length) := by
    rw [wikiImageMatch_build hp hx hd ht]
    simp only [Option.some.injEq, Prod.mk.injEq]
    refine ⟨trivial, ?_⟩
    simp [List.length_append]
    omega
  have hW : scan wikiImageMatch ('!' :: '[' :: '[' :: (path ++ d :: rest2))
      = [(0, (⟨path, cg, zg⟩ : WikiGroups),
          ('!' :: '[' :: '[' :: (path ++ d :: rest2)).length)] :=
    scanAux_all (by simp) hm
  have hM : scan mdImageMatch ('!' :: '[' :: '[' :: (path ++ d :: rest2)) = [] :=
    scan_md_nil hnp
  rw [parseImageLinks, hW, hM]
  simp [mkWikiLink, List.insertionSort, List.orderedInsert]

/-- Parsing a text that consists of exactly one canonical markdown link
yields exactly that link. -/
theorem parse_md_single {alt path : List Char}
    (ha : ∀ c ∈ alt, c ≠ ']')
    (hp : ∀ c ∈ path, mdPathChar c = true ∧ c ≠ ']') (hx : hasImageExt path = true)
    (hnp : noPair ']' ']' ('!' :: '[' :: (alt ++ ']' :: '(' :: (path ++ [')']))) = true) :
    parseImageLinks ('!' :: '[' :: (alt ++ ']' :: '(' :: (path ++ [')'])))
      = [{ fullMatch := '!' :: '[' :: (alt ++ ']' :: '(' :: (path ++ [')']))
           filePath := path
           caption := orNull (some alt)
           size := none
           type := .markdown
           start := 0
           stop := ('!' :: '[' :: (alt ++ ']' :: '(' :: (path ++ [')']))).length }] := by
  have hm : mdImageMatch ('!' :: '[' :: (alt ++ ']' :: '(' :: (path ++ [')'])))
      = some (⟨alt, path⟩, ('!' :: '[' :: (alt ++ ']' :: '(' :: (path ++ [')']))).length) := by
    rw [mdImageMatch_build ha (fun c hc => (hp c hc).1) hx]
    simp only [Option.some.injEq, Prod.mk.injEq]
    refine ⟨trivial, ?_⟩
    simp [List.length_append]
    omega
  have hM : scan mdImageMatch ('!' :: '[' :: (alt ++ ']' :: '(' :: (path ++ [')'])))
      = [(0, (⟨alt, path⟩ : MdGroups),
          ('!' :: '[' :: (alt ++ ']' :: '(' :: (path ++ [')']))).length)] :=
    scanAux_all (by simp) hm
  have hW : scan wikiImageMatch ('!' :: '[' :: (alt ++ ']' :: '(' :: (path ++ [')']))) = [] :=
    scan_wiki_nil hnp
  rw [parseImageLinks, hW, hM]
  simp [mkMdLink, List.insertionSort, List.orderedInsert]
/-- No `"]("` pair occurs in a canonical wiki link whose path and middle
segments avoid `]`. -/
theorem noPair_wiki_shape {path mid : List Char}
    (hp : ∀ c ∈ path, c ≠ ']') (hmid : ∀ c ∈ mid, c ≠ ']') :
    noPair ']' '(' ('!' :: '[' :: '[' :: (path ++ (mid ++ [']', ']']))) = true := by
  have hsplit : '!' :: '[' :: '[' :: (path ++ (mid ++ [']', ']']))
      = ('!' :: '[' :: '[' :: (path ++ mid)) ++ [']', ']'] := by simp
  rw [hsplit]
  apply noPair_append_head
  · apply noPair_of_no_fst
    intro c hc
    simp at hc
    rcases hc with rfl | rfl | h | h
    · decide
    · decide
    · exact hp c h
    · exact hmid c h
  · decide
  · intro c h
    simp at h
    subst h
    decide

/-- No `"]]"` pair occurs in a canonical markdown link whose alt text and
path avoid `]`. -/
theorem noPair_md_shape {alt path : List Char}
    (ha : ∀ c ∈ alt, c ≠ ']') (hp : ∀ c ∈ path, c ≠ ']') :
    noPair ']' ']' ('!' :: '[' :: (alt ++ ']' :: '(' :: (path ++ [')']))) = true := by
  have hsplit : '!' :: '[' :: (alt ++ ']' :: '(' :: (path ++ [')']))
      = ('!' :: '[' :: alt) ++ ([']', '('] ++ (path ++ [')'])) := by simp
  rw [hsplit]
  apply noPair_append_last
  · apply noPair_of_no_fst
    intro c hc
    simp at hc
    rcases hc with rfl | rfl | h
    · decide
    · decide
    · exact ha c h
  · apply noPair_append_head
    · decide
    · apply noPair_of_no_fst
      intro c hc
      simp at hc
      rcases hc with h | rfl
      · exact hp c h
      · decide
    · intro c h
      have hmem := List.mem_of_mem_head? h
      simp at hmem
      rcases hmem with h2 | rfl
      · exact hp c h2
      · decide
  · intro c h
    rcases List.getLast?_eq_some_iff.mp h with ⟨l2, hl2⟩
    have hmem : c ∈ ('!' :: '[' :: alt) := by
      rw [hl2]
      simp
    simp at hmem
    rcases hmem with rfl | rfl | h3
    · decide
    · decide
    · exact ha c h3
/-- A non-empty capture survives `|| null`. -/
theorem orNull_of_ne {s : List Char} (h : s ≠ []) : orNull (some s) = some s := by
  match s with
  | [] => exact absurd rfl h
  | x :: xt => rfl

/-- Wiki targets that round-trip: only class characters, with a recognized
image extension. -/
def wikiPathOk (p : List Char) : Bool := p.all wikiPathChar && hasImageExt p

/-- Wiki captions that round-trip: only class characters. -/
def wikiCaptionOk (c : Option (List Char)) : Bool :=
  match c with
  | none => true
  | some s => s.all wikiPathChar

/-- Sizes that round-trip: absent, or a non-empty digit string. -/
def sizeOk (z : Option (List Char)) : Bool :=
  match z with
  | none => true
  | some d => !d.isEmpty && d.all jsDigit

/-- Markdown targets that round-trip: no `)`, whitespace or `]`, with a
recognized image extension. -/
def mdPathOk (p : List Char) : Bool :=
  p.all (fun c => mdPathChar c && c ≠ ']') && hasImageExt p

/-- Markdown alt texts that round-trip: no `]`. -/
def mdCaptionOk (c : Option (List Char)) : Bool :=
  match c with
  | none => true
  | some s => s.all (· ≠ ']')

/-- A `sizeOk` size that is falsy is absent. -/
theorem sizeOk_falsy {z : Option (List Char)} (h : sizeOk z = true) (hf : truthy z = false) :
    z = none := by
  match z with
  | none => rfl
  | some [] => simp [sizeOk] at h
  | some (x :: xt) => simp [truthy] at hf

/-- C2 counterexample: building a wiki link for a target without an image
extension produces a string the parser does not recognize at all, so no
`ImageLink` with the original path comes back. -/
theorem c2_counterexample :
    parseImageLinks (buildImageLink "a".toList none none .wiki) = [] := by decide

/-- C2 (amended): building a link from a well-formed path, caption and size
and parsing it back yields exactly one `ImageLink` carrying the same path,
the normalized caption, and — for the wiki kind — the same size (the
markdown kind cannot represent a size and parses it back as null). -/
theorem c2_roundtrip (path : List Char) (caption size : Option (List Char)) (kind : LinkType)
    (hw : kind = .wiki →
      wikiPathOk path = true ∧ wikiCaptionOk caption = true ∧ sizeOk size = true)
    (hm : kind = .markdown → mdPathOk path = true ∧ mdCaptionOk caption = true) :
    ∃ l, parseImageLinks (buildImageLink path caption size kind) = [l] ∧
      l.filePath = path ∧ l.caption = orNull caption ∧
      l.size = (match kind with | .wiki => size | .markdown => none) := by
  cases kind with
  | wiki =>
    obtain ⟨hpOk, hcOk, hzOk⟩ := hw rfl
    rw [wikiPathOk, Bool.and_eq_true] at hpOk
    obtain ⟨hpAll', hpExt⟩ := hpOk
    have hpAll : ∀ c ∈ path, wikiPathChar c = true := by
      simpa [List.all_eq_true] using hpAll'
    have hpRB : ∀ c ∈ path, c ≠ ']' := fun c hc => wikiPathChar_ne_rb (hpAll c hc)
    by_cases htc : truthy caption = true
    · obtain ⟨cap, hceq, hcne, hcor⟩ := truthy_true htc
      have hcAll : ∀ c ∈ cap, wikiPathChar c = true := by
        subst hceq
        simpa [wikiCaptionOk, List.all_eq_true] using hcOk
      have hcRB : ∀ c ∈ cap, c ≠ ']' := fun c hc => wikiPathChar_ne_rb (hcAll c hc)
      by_cases hts : truthy size = true
      · -- caption and size
        obtain ⟨sz, hzeq, hzne, hzor⟩ := truthy_true hts
        have hzAll : ∀ c ∈ sz, jsDigit c = true := by
          subst hzeq
          simp only [sizeOk, Bool.and_eq_true] at hzOk
          simpa [List.all_eq_true] using hzOk.2
        have hbuild : buildImageLink path caption size .wiki
            = '!' :: '[' :: '[' :: (path ++ '|' :: (cap ++ '|' :: (sz ++ [']', ']']))) := by
          subst hceq hzeq
          unfold buildImageLink
          rw [if_pos htc, if_pos hts, if_pos htc]
          simp
        have ht : wikiTail ('|' :: (cap ++ '|' :: (sz ++ [']', ']'])))
            = some (some cap, some sz,
                ('|' :: (cap ++ '|' :: (sz ++ [']', ']']))).length) := by
          rw [show ('|' :: (cap ++ '|' :: (sz ++ [']', ']']))).length
              = 1 + cap.length + 1 + sz.length + 2 from by simp; omega]
          exact wikiTail_t4 hcAll hzAll hzne
        have hnp : noPair ']' '(' ('!' :: '[' :: '[' ::
            (path ++ '|' :: (cap ++ '|' :: (sz ++ [']', ']'])))) = true := by
          have hmid : ∀ c ∈ '|' :: (cap ++ ['|'] ++ sz), c ≠ ']' := by
            intro c hc
            simp at hc
            rcases hc with rfl | h | rfl | h
            · decide
            · exact hcRB c h
            · decide
            · exact fun he => jsDigit_ne_rb (hzAll c h) he
          have := noPair_wiki_shape hpRB hmid
          rw [show ('|' :: (cap ++ ['|'] ++ sz)) ++ [']', ']']
              = '|' :: (cap ++ '|' :: (sz ++ [']', ']'])) from by simp] at this
          exact this
        refine ⟨_, by rw [hbuild]; exact parse_wiki_single hpAll hpExt (by decide) ht hnp,
          rfl, ?_, ?_⟩
        · show orNull (some cap) = orNull caption
          rw [hceq]
        · show orNull (some sz) = size
          rw [hzeq]
          exact orNull_of_ne hzne
      · -- caption only
        have hts' : truthy size = false := by revert hts; cases truthy size <;> simp
        have hzeq : size = none := sizeOk_falsy hzOk hts'
        have hbuild : buildImageLink path caption size .wiki
            = '!' :: '[' :: '[' :: (path ++ '|' :: (cap ++ [']', ']'])) := by
          subst hceq hzeq
          unfold buildImageLink
          rw [if_pos htc, if_neg (by simp [hts'])]
          simp
        have ht : wikiTail ('|' :: (cap ++ [']', ']']))
            = some (some cap, none, ('|' :: (cap ++ [']', ']'])).length) := by
          rw [show ('|' :: (cap ++ [']', ']'])).length = 1 + cap.length + 2 from by
            simp; omega]
          exact wikiTail_t2 hcAll
        have hnp : noPair ']' '(' ('!' :: '[' :: '[' ::
            (path ++ '|' :: (cap ++ [']', ']']))) = true := by
          have hmid : ∀ c ∈ '|' :: cap, c ≠ ']' := by
            intro c hc
            rcases List.mem_cons.mp hc with rfl | h
            · decide
            · exact hcRB c h
          have := noPair_wiki_shape hpRB hmid
          rw [show ('|' :: cap) ++ [']', ']'] = '|' :: (cap ++ [']', ']']) from by simp]
            at this
          exact this
        refine ⟨_, by rw [hbuild]; exact parse_wiki_single hpAll hpExt (by decide) ht hnp,
          rfl, ?_, ?_⟩
        · show orNull (some cap) = orNull caption
          rw [hceq]
        · show (none : Option (List Char)) = size
          rw [hzeq]
    · have htc' : truthy caption = false := by revert htc; cases truthy caption <;> simp
      by_cases hts : truthy size = true
      · -- size only
        obtain ⟨sz, hzeq, hzne, hzor⟩ := truthy_true hts
        have hzAll : ∀ c ∈ sz, jsDigit c = true := by
          subst hzeq
          simp only [sizeOk, Bool.and_eq_true] at hzOk
          simpa [List.all_eq_true] using hzOk.2
        have hbuild : buildImageLink path caption size .wiki
            = '!' :: '[' :: '[' :: (path ++ '|' :: '|' :: (sz ++ [']', ']'])) := by
          subst hzeq
          unfold buildImageLink
          rw [if_neg (by simp [htc']), if_pos hts, if_neg (by simp [htc'])]
          simp
        have ht : wikiTail ('|' :: '|' :: (sz ++ [']', ']']))
            = some (some [], some sz, ('|' :: '|' :: (sz ++ [']', ']'])).length) := by
          rw [show ('|' :: '|' :: (sz ++ [']', ']'])).length = 4 + sz.length from by
            simp; omega]
          exact wikiTail_t3 hzAll hzne
        have hnp : noPair ']' '(' ('!' :: '[' :: '[' ::
            (path ++ '|' :: '|' :: (sz ++ [']', ']']))) = true := by
          have hmid : ∀ c ∈ '|' :: '|' :: sz, c ≠ ']' := by
            intro c hc
            rcases List.mem_cons.mp hc with rfl | hc2
            · decide
            · rcases List.mem_cons.mp hc2 with rfl | h
              · decide
              · exact fun he => jsDigit_ne_rb (hzAll c h) he
          have := noPair_wiki_shape hpRB hmid
          rw [show ('|' :: '|' :: sz) ++ [']', ']'] = '|' :: '|' :: (sz ++ [']', ']'])
            from by simp] at this
          exact this
        refine ⟨_, by rw [hbuild]; exact parse_wiki_single hpAll hpExt (by decide) ht hnp,
          rfl, ?_, ?_⟩
        · show orNull (some []) = orNull caption
          rw [truthy_false_orNull htc']
          rfl
        · show orNull (some sz) = size
          rw [hzeq]
          exact orNull_of_ne hzne
      · -- neither caption nor size
        have htc2 : truthy caption = false := htc'
        have hts' : truthy size = false := by revert hts; cases truthy size <;> simp
        have hzeq : size = none := sizeOk_falsy hzOk hts'
        have hbuild : buildImageLink path caption size .wiki
            = '!' :: '[' :: '[' :: (path ++ ']' :: [']']) := by
          subst hzeq
          unfold buildImageLink
          rw [if_neg (by simp [htc']), if_neg (by simp [hts'])]
          simp
        have ht : wikiTail (']' :: [']'])
            = some (none, none, (']' :: [']']).length) := wikiTail_t1
        have hnp : noPair ']' '(' ('!' :: '[' :: '[' :: (path ++ ']' :: [']'])) = true := by
          have := noPair_wiki_shape hpRB (fun c hc => absurd hc (List.not_mem_nil c))
          rw [show path ++ ([] ++ [']', ']']) = path ++ ']' :: [']'] from rfl] at this
          exact this
        refine ⟨_, by rw [hbuild]; exact parse_wiki_single hpAll hpExt (by decide) ht hnp,
          rfl, ?_, ?_⟩
        · show (none : Option (List Char)) = orNull caption
          rw [truthy_false_orNull htc']
        · show (none : Option (List Char)) = size
          rw [hzeq]
  | markdown =>
    obtain ⟨hpOk, hcOk⟩ := hm rfl
    rw [mdPathOk, Bool.and_eq_true] at hpOk
    obtain ⟨hpAll', hpExt⟩ := hpOk
    have hpAll : ∀ c ∈ path, mdPathChar c = true ∧ c ≠ ']' := by
      intro c hc
      have := (List.all_eq_true.mp hpAll') c hc
      rw [Bool.and_eq_true] at this
      exact ⟨this.1, by simpa using this.2⟩
    by_cases htc : truthy caption = true
    · obtain ⟨cap, hceq, hcne, hcor⟩ := truthy_true htc
      have hcRB : ∀ c ∈ cap, c ≠ ']' := by
        subst hceq
        have h2 : ∀ x ∈ cap, ¬ x = ']' := by
          simpa [mdCaptionOk, List.all_eq_true] using hcOk
        exact h2
      have hbuild : buildImageLink path caption size .markdown
          = '!' :: '[' :: (cap ++ ']' :: '(' :: (path ++ [')'])) := by
        subst hceq
        unfold buildImageLink
        dsimp only
        rw [if_pos htc]
        simp
      refine ⟨_, by
          rw [hbuild]
          exact parse_md_single hcRB hpAll hpExt
            (noPair_md_shape hcRB fun c hc => (hpAll c hc).2),
        rfl, ?_, rfl⟩
      show orNull (some cap) = orNull caption
      rw [hceq]
    · have htc' : truthy caption = false := by revert htc; cases truthy caption <;> simp
      have hbuild : buildImageLink path caption size .markdown
          = '!' :: '[' :: (([] : List Char) ++ ']' :: '(' :: (path ++ [')'])) := by
        unfold buildImageLink
        dsimp only
        rw [if_neg (by simp [htc'])]
        simp
      refine ⟨_, by
          rw [hbuild]
          exact parse_md_single (fun c hc => absurd hc (List.not_mem_nil c)) hpAll hpExt
            (noPair_md_shape (fun c hc => absurd hc (List.not_mem_nil c)) fun c hc => (hpAll c hc).2),
        rfl, ?_, rfl⟩
      show (none : Option (List Char)) = orNull caption
      rw [truthy_false_orNull htc']

/-- Witness for C2 at a wiki link with caption and size. -/
theorem c2_roundtrip_witness :
    ∃ l, parseImageLinks (buildImageLink "img.png".toList (some "cap".toList)
          (some "500".toList) .wiki) = [l] ∧
        l.filePath = "img.png".toList ∧ l.caption = orNull (some "cap".toList) ∧
        l.size = (match LinkType.wiki with
          | .wiki => some "500".toList
          | .markdown => none) :=
  c2_roundtrip "img.png".toList (some "cap".toList) (some "500".toList) .wiki
    (fun _ => ⟨by decide, by decide, by decide⟩) (fun h => LinkType.noConfusion h)
